import Mathlib

/-!
Verification of the gitchunk incremental-archival pipeline.

This file gives a shallow embedding of the core gitchunk modules
(`gitchunk/chunking.py`, `gitchunk/processing.py`, `gitchunk/git_manager.py`,
`gitchunk/parsing.py`, `gitchunk/game/manager.py`) and proves or refutes the
spec-level properties about them.

Modelling conventions:
* File contents are `List Nat` (one `Nat` per byte; the algorithms never look
  at byte values, only at lengths and concatenation).
* Python strings are modelled as `List Char` where character-level behaviour
  (`str.replace`, regexes) matters, and as `String` elsewhere.
* Filesystem directories are association lists from file names to contents.
* Fallible code returns `Except`/`Option`; an injected failure point stands
  for "an exception is raised here".
-/

namespace Gitchunk

/-! ## ChunkStore: FileChunker.split_file (gitchunk/chunking.py lines 14-70)

`split_file` computes `total_parts = (file_size + chunk_size - 1) // chunk_size`
and for `i in range(total_parts)` writes part `i+1`, whose content is the bytes
from offset `i*chunk_size`, at most `chunk_size` of them.  (The source reads the
part in blocks of `BLOCK_SIZE = 5 MiB`; consecutive `f.read` calls return
consecutive bytes, so the bytes written to part `i+1` are exactly
`content.drop (i*chunk_size) |>.take chunk_size`.)  Each part is written to a
temporary file and renamed to `<name>.gc.{i+1:03d}`; after the loop the original
is unlinked.  On any exception the `except` branch unlinks every finalized chunk
in `chunks_creados` and re-raises. -/

/-- `total_parts = (file_size + chunk_size - 1) // chunk_size`. -/
def totalParts (fileSize chunkSize : Nat) : Nat :=
  (fileSize + chunkSize - 1) / chunkSize

/-- Content of 0-indexed part `i`: the net effect of the block-read loop for
one chunk. -/
def chunkContent (content : List Nat) (chunkSize i : Nat) : List Nat :=
  (content.drop (i * chunkSize)).take chunkSize

/-- The finalized chunk files of a fully successful split, as
(1-indexed part number, content) pairs, in creation order. -/
def numberedChunks (content : List Nat) (chunkSize : Nat) : List (Nat × List Nat) :=
  (List.range' 1 (totalParts content.length chunkSize)).map
    (fun p => (p, chunkContent content chunkSize (p - 1)))

/-- Filesystem state relevant to `split_file`: the original file (if still
present) and the finalized chunk files. -/
structure SplitState where
  original : Option (List Nat)
  chunks : List (Nat × List Nat)
deriving DecidableEq, Repr

/-- The `for i in range(total_parts)` loop of `split_file`.  `ps` is the list
of part numbers still to write, `created` the finalized chunks so far
(`chunks_creados`).  `failAt = some p` injects an exception at the start of
part `p`'s iteration; on an exception the `except` branch of `split_file`
unlinks every chunk in `chunks_creados`, so the on-disk chunk set becomes `[]`.
Returns (result, finalized chunk files on disk). -/
def splitGo (content : List Nat) (chunkSize : Nat) (failAt : Option Nat) :
    List Nat → List (Nat × List Nat) →
    Except Unit (List (Nat × List Nat)) × List (Nat × List Nat)
  | [], created => (.ok created, created)
  | p :: rest, created =>
    if failAt = some p then
      (.error (), [])
    else
      splitGo content chunkSize failAt rest
        (created ++ [(p, chunkContent content chunkSize (p - 1))])

/-- `FileChunker.split_file` on an existing file: runs the part loop, then
unlinks the original (`failAt = some (total_parts + 1)` injects an exception
at this final unlink).  Returns the Python return value (or the re-raised
exception) together with the final filesystem state. -/
def split_file (content : List Nat) (chunkSize : Nat) (failAt : Option Nat) :
    Except Unit (List (Nat × List Nat)) × SplitState :=
  let total := totalParts content.length chunkSize
  match splitGo content chunkSize failAt (List.range' 1 total) [] with
  | (.error e, chunksLeft) => (.error e, ⟨some content, chunksLeft⟩)
  | (.ok created, _) =>
    if failAt = some (total + 1) then
      -- exception at `file_path.unlink()`: the except branch deletes every
      -- finalized chunk and re-raises; the original file is still present.
      (.error (), ⟨some content, []⟩)
    else
      (.ok created, ⟨none, created⟩)

/-! ## ChunkStore: FileChunker.join_files (gitchunk/chunking.py lines 72-139)

`join_files(folder)` scans for files matching the glob
`*{SUFFIX}.[0-9][0-9][0-9]` with `SUFFIX = ".gc"`, groups them by the name
prefix before the first ".gc" occurrence, and for each group (in first-seen
order, Python dicts preserving insertion order): sorts the group's paths
lexicographically, reads the numeric suffix of the last path, skips the group
(`continue`) if the number of parts differs from it, otherwise concatenates
the parts into a temporary file, raises if the result is empty, displaces any
pre-existing target with `send2trash`, renames the temporary onto the target,
and unlinks the group's chunk files.  Any exception inside the `try` is
re-raised (`raise e`) and aborts the whole scan.

Modelling: a file name is either `FName.plain s` (the plain name `s`) or
`FName.chunk b n` (the name `b ++ ".gc." ++ pad3 n` produced by `split_file`,
where `pad3` is the `{n:03d}` rendering).  The glob matches `chunk b n`
exactly when `pad3 n` has 3 digits, i.e. `n < 1000` (for `n ≥ 1000` the
rendering has more than 3 digits and the pattern does not match).  Grouping
`chunk b n` under key `b` matches the source's `name.split(".gc")[0]` for
base names not themselves containing ".gc".  Within one group the
lexicographic path order of `b ++ ".gc." ++ pad3 n` is the numeric order of
`n`, because the numerals are zero-padded to equal width 3. -/

/-- File names of the join model. -/
inductive FName where
  | plain (name : String)
  | chunk (base : String) (num : Nat)
deriving DecidableEq, Repr

/-- A directory: file names with contents, in traversal order. -/
abbrev Dir := List (FName × List Nat)

/-- The files matched by `folder.rglob(f"*{SUFFIX}.[0-9][0-9][0-9]")`, as
(group key, part number, content) triples in traversal order. -/
def chunkEntries (dir : Dir) : List (String × Nat × List Nat) :=
  dir.filterMap (fun e =>
    match e.1 with
    | .chunk b n => if n < 1000 then some (b, n, e.2) else none
    | .plain _ => none)

/-- Accumulates the distinct group keys in first-seen order (the iteration
order of the `grupos` dict). -/
def basesAux : List (String × Nat × List Nat) → List String → List String
  | [], acc => acc
  | e :: rest, acc => basesAux rest (if acc.contains e.1 then acc else acc ++ [e.1])

/-- The group keys of `grupos`, in insertion order. -/
def basesInOrder (es : List (String × Nat × List Nat)) : List String :=
  basesAux es []

/-- The chunk list `grupos[target_path]` for one group key. -/
def groupOf (es : List (String × Nat × List Nat)) (b : String) : List (Nat × List Nat) :=
  (es.filter (fun e => e.1 == b)).map (fun e => e.2)

/-- `chunks.sort()`: lexicographic on paths, which within a group is numeric
order on the zero-padded part numbers (all `< 1000` after the glob).  Python's
sort is stable; `List.insertionSort` is the stable sort of the library. -/
def sortChunks (g : List (Nat × List Nat)) : List (Nat × List Nat) :=
  List.insertionSort (fun a b => a.1 ≤ b.1) g

/-- The completeness gate: `len(chunks) == int(chunks[-1].suffix.split(".")[-1])`
after sorting.  (Groups coming from the scan are never empty; an empty group
would raise `IndexError` on `chunks[-1]` — we return `false`, the branch is
unreachable.) -/
def groupComplete (g : List (Nat × List Nat)) : Bool :=
  match (sortChunks g).getLast? with
  | none => false
  | some last => (sortChunks g).length == last.1

/-- Concatenation of the sorted parts, i.e. the bytes written to the
reconstruction temporary. -/
def joinConcat (g : List (Nat × List Nat)) : List Nat :=
  ((sortChunks g).map (fun p => p.2)).flatten

/-- Whether a file name is one of the chunk files of group `b`
(`for chunk_p in chunks: chunk_p.unlink()` removes exactly these). -/
def isChunkOfGroup (b : String) (g : List (Nat × List Nat)) : FName → Bool
  | .chunk b' n => b' == b && g.any (fun p => p.1 == n)
  | .plain _ => false

/-- Outcome of processing one group. -/
inductive GroupOutcome where
  | skipped
  | joined
  | failed
deriving DecidableEq, Repr

/-- The body of the `for target_path, chunks in grupos.items()` loop for one
group: skip if incomplete; raise (aborting the whole `join_files`) if the
concatenated result is empty; otherwise displace any pre-existing target,
rename the temporary onto the target, and unlink the group's chunks. -/
def processGroup (d : Dir) (b : String) (g : List (Nat × List Nat)) :
    GroupOutcome × Dir :=
  if groupComplete g = false then (.skipped, d)
  else
    let c := joinConcat g
    if c.length = 0 then (.failed, d)
    else
      (.joined,
       (d.filter (fun f => !(f.1 == FName.plain b || isChunkOfGroup b g f.1)))
         ++ [(FName.plain b, c)])

/-- The group loop of `join_files`.  A `failed` group re-raises and aborts the
remaining groups; `skipped` and `joined` continue with the updated directory. -/
def joinGo (es : List (String × Nat × List Nat)) :
    List String → Dir → Dir × Option Unit
  | [], d => (d, none)
  | b :: rest, d =>
    let r := processGroup d b (groupOf es b)
    if r.1 = .failed then (r.2, some ()) else joinGo es rest r.2

/-- `FileChunker.join_files` on a directory: returns the final directory state
and `some ()` when an exception was re-raised. -/
def join_files (dir : Dir) : Dir × Option Unit :=
  joinGo (chunkEntries dir) (basesInOrder (chunkEntries dir)) dir

/-- The directory left behind by a fully successful `split_file` of a file
named `base` (the original has been unlinked; only the chunks remain). -/
def splitDir (base : String) (content : List Nat) (chunkSize : Nat) : Dir :=
  (numberedChunks content chunkSize).map (fun pc => (FName.chunk base pc.1, pc.2))

/-! ## ChangeClassifier and BatchPlanner (gitchunk/processing.py)

`processing.py` imports `MAX_BATCH_SIZE_BYTES`, `MAX_FILE_SIZE_BYTES` and
`MAX_TOTAL_SIZE_ALLOWED` from `gitchunk.constants`, a module not present in
the sources; their values are modelled from the spec (§6). -/

/-- Modelled from the spec: single-file cap ≈ 90 MiB (`gitchunk/constants.py`
is missing from the sources). -/
def MAX_FILE_SIZE_BYTES : Nat := 90 * 1024 * 1024

/-- Modelled from the spec: absolute per-file cap ≈ 360 MiB
(`gitchunk/constants.py` is missing from the sources). -/
def MAX_TOTAL_SIZE_ALLOWED : Nat := 360 * 1024 * 1024

/-- Modelled from the spec: batch cap ≈ 300 MiB (`gitchunk/constants.py` is
missing from the sources). -/
def MAX_BATCH_SIZE_BYTES : Nat := 300 * 1024 * 1024

/-- The `unstaged` part of a `get_git_status` snapshot (the only part
`filter_files_from_status` reads). -/
structure GitStatus where
  modified : List String
  deleted : List String
  untracked : List String

/-- The classifier's result (schemas.FilesFiltered). -/
structure FilesFiltered where
  files_to_batch : List (String × Nat)
  files_to_chunk : List (String × Nat)
  deleted_files : List String
  invalid_files : List (String × Nat × String)

/-- The classification loop of `filter_files_from_status`: `stat f` is
`full_path.stat().st_size` for an existing file and `none` when the file
vanished between the snapshot and the stat (then the path is skipped).
Returns (files_to_batch, files_to_chunk, invalid_files) in iteration order,
before the final sort. -/
def classifyFiles (stat : String → Option Nat) :
    List String → List (String × Nat) × List (String × Nat) × List (String × Nat × String)
  | [] => ([], [], [])
  | f :: rest =>
    let r := classifyFiles stat rest
    match stat f with
    | none => r
    | some size =>
      if size ≤ MAX_FILE_SIZE_BYTES then ((f, size) :: r.1, r.2.1, r.2.2)
      else if size ≤ MAX_TOTAL_SIZE_ALLOWED then (r.1, (f, size) :: r.2.1, r.2.2)
      else (r.1, r.2.1, (f, size, "Excede el límite (360MB)") :: r.2.2)

/-- `filter_files_from_status`: classifies `modified ++ untracked` by size and
sorts `files_to_batch` ascending by size (`files_to_batch.sort(key=lambda x:
x[1])`; Python's sort is stable, as is `List.insertionSort`). -/
def filter_files_from_status (stat : String → Option Nat) (st : GitStatus) :
    FilesFiltered :=
  let r := classifyFiles stat (st.modified ++ st.untracked)
  { files_to_batch := List.insertionSort (fun a b => a.2 ≤ b.2) r.1
    files_to_chunk := r.2.1
    deleted_files := st.deleted
    invalid_files := r.2.2 }

/-- The result of `batch_files` (schemas.Batchs). -/
structure Batchs where
  to_add : List (List String)
  to_delete : List String

/-- The greedy packing loop of `batch_files` over `(file, size)` pairs:
`size` is `batch_size_bytes`, `cur` is `batch_current`, `acc` is `batchs`. -/
def batchGo : List (String × Nat) → Nat → List String → List (List String) →
    List (List String)
  | [], _, cur, acc => if cur.isEmpty then acc else acc ++ [cur]
  | (f, s) :: rest, size, cur, acc =>
    if MAX_BATCH_SIZE_BYTES < size + s then
      batchGo rest s [f] (if cur.isEmpty then acc else acc ++ [cur])
    else
      batchGo rest (size + s) (cur ++ [f]) acc

/-- `batch_files`. -/
def batch_files (files : FilesFiltered) : Batchs :=
  { to_add := batchGo files.files_to_batch 0 [] []
    to_delete := files.deleted_files }

/-- The same packing loop, but keeping the `(file, size)` pairs in the
batches so that batch sizes can be stated; `batch_files` is its projection
to file names (`batchGo_eq_map_batchGoS`). -/
def batchGoS : List (String × Nat) → Nat → List (String × Nat) →
    List (List (String × Nat)) → List (List (String × Nat))
  | [], _, cur, acc => if cur.isEmpty then acc else acc ++ [cur]
  | (f, s) :: rest, size, cur, acc =>
    if MAX_BATCH_SIZE_BYTES < size + s then
      batchGoS rest s [(f, s)] (if cur.isEmpty then acc else acc ++ [cur])
    else
      batchGoS rest (size + s) (cur ++ [(f, s)]) acc

/-- Sized batches of the planner. -/
def batchFilesSized (fs : List (String × Nat)) : List (List (String × Nat)) :=
  batchGoS fs 0 [] []

/-- Cumulative byte size of a sized batch. -/
def batchSize (b : List (String × Nat)) : Nat :=
  (b.map Prod.snd).sum

/-! ## SyncReconciler (gitchunk/git_manager.py)

`get_sync_status` is a pure classification once the git queries are injected:
* `remoteRefExists` — `ls_remote` succeeded with non-empty output (a
  `GitCommandError` or empty output both yield `NO_REMOTE`);
* `isRepoNew` — `is_repo_new(repo)`, i.e. the local repository has no commits;
* `commitsEqual` — `local_commit == remote_commit`;
* `remoteIsAncestorOfLocal` / `localIsAncestorOfRemote` — the two
  `repo.is_ancestor` queries (a `GitCommandError` is swallowed by
  `try/except: pass`, i.e. behaves as `false`). -/

/-- schemas.SyncStatus. -/
inductive SyncStatus where
  | NO_REMOTE
  | EQUAL
  | AHEAD
  | BEHIND
  | DIVERGED
deriving DecidableEq, Repr

/-- `get_sync_status`, with the git queries injected as booleans. -/
def get_sync_status (remoteRefExists isRepoNew commitsEqual
    remoteIsAncestorOfLocal localIsAncestorOfRemote : Bool) : SyncStatus :=
  if remoteRefExists = false then .NO_REMOTE
  else if isRepoNew then .BEHIND
  else if commitsEqual then .EQUAL
  else if remoteIsAncestorOfLocal then .AHEAD
  else if localIsAncestorOfRemote then .BEHIND
  else .DIVERGED

/-- Local repository state as far as `git reset` is concerned: the current
head commit (none for an unborn branch), and the index and working-tree
contents (tree ids). -/
structure RepoState where
  head : Option Nat
  index : Nat
  worktree : Nat
deriving DecidableEq, Repr

/-- `git reset <commit>` (no mode flag): defaults to `--mixed` — moves the
branch head and resets the index to the commit's tree, leaving the working
tree untouched. -/
def git_reset_mixed (commitTree : Nat → Nat) (s : RepoState) (target : Nat) :
    RepoState :=
  { head := some target, index := commitTree target, worktree := s.worktree }

/-- `git reset --soft <commit>`: moves the branch head only. -/
def git_reset_soft (s : RepoState) (target : Nat) : RepoState :=
  { head := some target, index := s.index, worktree := s.worktree }

/-- `git reset --hard <commit>`: moves the branch head and resets index and
working tree (what the spec asserts for the BEHIND case). -/
def git_reset_hard (commitTree : Nat → Nat) (target : Nat) : RepoState :=
  { head := some target, index := commitTree target, worktree := commitTree target }

/-- The `match status` arm of `sync_with_remote_shallow`: the corrective
action applied to the local repository for each sync state, and the returned
boolean.  The BEHIND arm runs `repo.git.reset(remote_ref)` — a mode-less,
hence `--mixed`, reset; the DIVERGED arm runs `repo.git.reset("--soft",
remote_ref)`. -/
def sync_with_remote_shallow (commitTree : Nat → Nat) (status : SyncStatus)
    (s : RepoState) (remoteTip : Nat) : RepoState × Bool :=
  match status with
  | .NO_REMOTE => (s, false)
  | .EQUAL => (s, true)
  | .AHEAD => (s, true)
  | .BEHIND => (git_reset_mixed commitTree s remoteTip, true)
  | .DIVERGED => (git_reset_soft s remoteTip, true)

/-! ## PushPipeline: push_commits_one_by_one (gitchunk/git_manager.py 246-273)

The pipeline fetches, picks the rev range `remote_ref..branch` (or the whole
branch when `rev-parse --verify` fails on the remote ref), lists
`repo.iter_commits(rev_range)` (git yields newest first), then pushes
`reversed(commits)` one at a time with `force_with_lease=True`, sleeping
`delay_minutes` after each push except the last
(`if index < len(commits): sleep(...)`). -/

/-- Observable events of the push loop. -/
inductive PushEvent where
  | push (hexsha : Nat) (branch : String) (forceWithLease : Bool)
  | sleepMinutes (minutes : Nat)
deriving DecidableEq, Repr

/-- The `for index, commit in enumerate(reversed(commits), start=1)` loop;
`total = len(commits)`. -/
def pushLoop (branch : String) (delay total : Nat) :
    Nat → List Nat → List PushEvent
  | _, [] => []
  | i, c :: rest =>
    .push c branch true ::
      ((if i < total then [.sleepMinutes delay] else []) ++
        pushLoop branch delay total (i + 1) rest)

/-- `push_commits_one_by_one`: `rangeCommits` models
`repo.iter_commits(f"{remote_ref}..{branch}")` and `wholeBranch` models
`repo.iter_commits(branch)`, both newest-first; the former is used when the
remote ref exists, the latter when `rev-parse --verify` fails. -/
def push_commits_one_by_one (remoteRefExists : Bool)
    (rangeCommits wholeBranch : List Nat) (branch : String)
    (delay_minutes : Nat) : List PushEvent :=
  let commits := if remoteRefExists then rangeCommits else wholeBranch
  pushLoop branch delay_minutes commits.length 1 commits.reverse

/-! ## TagGuard (gitchunk/game/manager.py 39-57, gitchunk/parsing.py)

Python strings are modelled as `List Char`.  `str.replace(old, new)` replaces
all non-overlapping occurrences left to right; it is implemented here with an
explicit fuel argument (one unit per consumed character, so `s.length` fuel is
always enough) to keep the function structurally recursive and hence
evaluable by `decide`. -/

/-- `str.replace` with a non-empty pattern `p0 :: pt`, replacement `repl`,
driven by fuel. -/
def replaceAllF (p0 : Char) (pt repl : List Char) : Nat → List Char → List Char
  | 0, l => l
  | _ + 1, [] => []
  | fuel + 1, c :: rest =>
    if (p0 :: pt).isPrefixOf (c :: rest) then
      repl ++ replaceAllF p0 pt repl fuel (rest.drop pt.length)
    else
      c :: replaceAllF p0 pt repl fuel rest

/-- `s.replace(p0 :: pt, repl)` (every scanning step consumes at least one
character, so `s.length` fuel always suffices). -/
def replaceAll (p0 : Char) (pt repl : List Char) (s : List Char) : List Char :=
  replaceAllF p0 pt repl s.length s

/-- parsing.strip_metadata: `re.sub(r"\+chunked", "", s)`, i.e.
`s.replace("+chunked", "")`. -/
def strip_metadata (s : List Char) : List Char :=
  replaceAll '+' ("chunked".toList) [] s

/-- The character class `[a-zA-Z0-9_]`. -/
def isWordChar (c : Char) : Bool := c.isAlphanum || c = '_'

/-- parsing.strip_platform: `re.sub(r"-[a-zA-Z0-9_]+(?=\+|$)", "", s)`.
At a `'-'` the regex matches iff the maximal word-character run after it is
non-empty and is followed by `'+'` or the end of the string (the lookahead
consumes nothing, so scanning resumes right after the run).  Fuel-driven for
the same reason as `replaceAllF`. -/
def stripPlatformF : Nat → List Char → List Char
  | 0, l => l
  | _ + 1, [] => []
  | fuel + 1, c :: rest =>
    if c = '-' then
      if (rest.takeWhile isWordChar).length ≠ 0 ∧
          (rest.drop (rest.takeWhile isWordChar).length = [] ∨
           (rest.drop (rest.takeWhile isWordChar).length).head? = some '+') then
        stripPlatformF fuel (rest.drop (rest.takeWhile isWordChar).length)
      else c :: stripPlatformF fuel rest
    else c :: stripPlatformF fuel rest

/-- parsing.strip_platform. -/
def strip_platform (s : List Char) : List Char :=
  stripPlatformF s.length s

/-- `re.search(r"(\d.*)", s)`: the substring from the first digit to the end
(`None` if there is no digit). -/
def fromFirstDigit (s : List Char) : Option (List Char) :=
  match s.dropWhile (fun c => !c.isDigit) with
  | [] => none
  | l => some l

/-- Split on `'.'` (like Python's `"x.y".split(".")` — empty components are
kept, so malformed inputs like `"1..2"` yield an empty component). -/
def splitOnDot : List Char → List (List Char)
  | [] => [[]]
  | c :: rest =>
    if c = '.' then [] :: splitOnDot rest
    else
      match splitOnDot rest with
      | [] => [[c]]
      | h :: t => (c :: h) :: t

/-- Numeric value of a non-empty all-digit component; `none` otherwise. -/
def digitsVal (cs : List Char) : Option Nat :=
  if cs ≠ [] ∧ cs.all Char.isDigit then
    some (cs.foldl (fun n c => n * 10 + (c.toNat - 48)) 0)
  else none

/-- Drop trailing zero components (`1.0` and `1` are the same version under
packaging's zero-padded comparison; this normal form makes plain
lexicographic list comparison agree with it). -/
def stripTrailingZeros (l : List Nat) : List Nat :=
  (l.reverse.dropWhile (fun n => n == 0)).reverse

/-- Models `packaging.version.parse` restricted to plain release strings
`N(.N)*`: returns the release components in trailing-zero normal form, and
`none` (the library raises `InvalidVersion`, which nothing in the guard
catches) for any other shape.  This is a partial model of the external
library: pre/post/dev releases and epochs are out of scope; every string the
verified theorems feed it is covered by this grammar. -/
def parse_version (s : List Char) : Option (List Nat) :=
  ((splitOnDot s).mapM digitsVal).map stripTrailingZeros

/-- Strict comparison of parsed releases in trailing-zero normal form:
ordinary lexicographic order on the component lists. -/
def releaseLt : List Nat → List Nat → Bool
  | [], [] => false
  | [], _ :: _ => true
  | _ :: _, [] => false
  | a :: as, b :: bs =>
    if a < b then true else if b < a then false else releaseLt as bs

/-- parsing.get_comparable_version: strip the `+chunked` metadata, strip the
platform suffix, take the substring from the first digit, and parse it
(raises — `none` — when no digit is found or the parse fails). -/
def get_comparable_version (s : List Char) : Option (List Nat) :=
  (fromFirstDigit (strip_platform (strip_metadata s))).bind parse_version

/-- Modelled from the spec: `is_version_older` is imported from
`gitchunk.parsing` in game/manager.py but absent from the sources.  Per §4.7
the two versions are compared "using standard multi-component numeric
ordering" after the stripping that `get_comparable_version` performs;
an unparsable version raises (`none`). -/
def is_version_older (a b : List Char) : Option Bool :=
  match get_comparable_version a, get_comparable_version b with
  | some ra, some rb => some (releaseLt ra rb)
  | _, _ => none

/-- Outcome of the regression guard in `GameManager.process_game`:
`regression` is the explicit `ValueError("Regresión detectada: ...")`;
`parseFailure` is an uncaught exception out of `max(..., key=parse_version)`
or `is_version_older` (e.g. packaging's `InvalidVersion`). -/
inductive GuardResult where
  | proceed
  | regression
  | parseFailure
deriving DecidableEq, Repr

/-- The per-tag munge of manager.py line 44:
`t.replace("v", "").replace(f"-{platform}", "")` — note every `'v'` is
removed first, then every occurrence of the suffix string. -/
def tagMunge (platform : List Char) (t : List Char) : List Char :=
  replaceAll '-' platform [] (replaceAll 'v' [] [] t)

/-- Python's `max(x :: xs, key=...)` keeps the first element with the
strictly greatest key (`if key(y) > key(best): best = y`). -/
def pyMaxPairs (x : List Char × List Nat) (xs : List (List Char × List Nat)) :
    List Char × List Nat :=
  xs.foldl (fun best y => if releaseLt best.2 y.2 then y else best) x

/-- The regression guard of `GameManager.process_game` (lines 40-57): if the
remote repository exists, filter the remote tags to those ending in
`-{platform}`, munge each, and when any survive, compare the candidate
against the max-by-parsed-version; raise a regression error when the
candidate is older.  A tag whose munged form does not parse escapes as
`parseFailure` (from `max`'s key); so does an uncomparable candidate (from
`is_version_older`). -/
def tag_guard_compare (candidate : List Char) (latest : List Char) : GuardResult :=
  match is_version_older candidate latest with
  | none => .parseFailure
  | some true => .regression
  | some false => .proceed

def tag_guard_pairs (candidate : List Char) :
    Option (List (List Char × List Nat)) → GuardResult
  | none => .parseFailure
  | some [] => .proceed
  | some (x :: xs) => tag_guard_compare candidate (pyMaxPairs x xs).1

def tag_guard (candidate platform : List Char) (repoExists : Bool)
    (remoteTags : List (List Char)) : GuardResult :=
  if repoExists = false then .proceed
  else
    tag_guard_pairs candidate
      (((remoteTags.filter
          (fun t => ('-' :: platform).isSuffixOf t)).map (tagMunge platform)).mapM
        (fun v => (parse_version v).map (fun k => (v, k))))

/-- Spec-side view of "the already-published versions on the channel": the
same-channel tags, each put through parsing.get_comparable_version ("strip
build metadata and the channel suffix, parse the remaining numeric
component"). -/
def publishedVersions (platform : List Char) (remoteTags : List (List Char)) :
    List (List Nat) :=
  (remoteTags.filter (fun t => ('-' :: platform).isSuffixOf t)).filterMap
    get_comparable_version

/-- A plain numeric version string: digits and dots only. -/
def NumericChars (s : List Char) : Prop :=
  ∀ c ∈ s, c.isDigit = true ∨ c = '.'

instance (s : List Char) : Decidable (NumericChars s) :=
  inferInstanceAs (Decidable (∀ c ∈ s, c.isDigit = true ∨ c = '.'))

/-- Well-formedness of one remote tag with respect to channel `ch`: either it
is not a same-channel tag (it does not end in `-{ch}`), or it is
`v<ver>-<ch>` for a parsable plain numeric version `<ver>`. -/
def TagOk (ch t : List Char) : Prop :=
  (('-' :: ch).isSuffixOf t = false) ∨
    ∃ ver rv, t = 'v' :: (ver ++ '-' :: ch) ∧ NumericChars ver ∧
      parse_version ver = some rv

/-- The repository mutations that `process_game` performs, in program order.
`initLocalRepo` and `markSafeDirectory` come from the `GitchunkRepo`
constructor (manager.py line 29): `_open_or_init` (core.py lines 103-128)
runs `Repo.init(path)` when `<path>/.git` does not exist, and on a dubious
ownership error writes `safe.directory` to the global git config.  Both
happen before the scan and the guard. -/
inductive RunMutation where
  | initLocalRepo
  | markSafeDirectory
  | createRemoteRepo
  | cleanArtifacts
  | configureIdentity
  | configureEndpoint
  | synchronize
  | createCommits
  | pushCommits
  | tagUpdate
deriving DecidableEq, Repr

/-- The mutations performed by the `GitchunkRepo` constructor, which runs
before the guard: `Repo.init` when the directory has no `.git`, and a global
`safe.directory` config write when git reports dubious ownership. -/
def preGuardMutations (gitDirExists dubiousOwnership : Bool) : List RunMutation :=
  (if gitDirExists then [] else [.initLocalRepo]) ++
    (if dubiousOwnership then [.markSafeDirectory] else [])

/-- `process_game` up to its effect on the repository: the `GitchunkRepo`
constructor runs first (its mutations are `preGuardMutations`), then the
(read-only) scan and the guard; a `ValueError` — or an escaping parse error —
aborts the run before `get_or_create_repo`, the cleaner, identity and
endpoint configuration, synchronization, commits, pushes and tag updates. -/
def process_game_mutations (gitDirExists dubiousOwnership : Bool)
    (candidate platform : List Char) (repoExists : Bool)
    (remoteTags : List (List Char)) : GuardResult × List RunMutation :=
  match tag_guard candidate platform repoExists remoteTags with
  | .proceed =>
    (.proceed,
     preGuardMutations gitDirExists dubiousOwnership ++
       [.createRemoteRepo, .cleanArtifacts, .configureIdentity,
        .configureEndpoint, .synchronize, .createCommits, .pushCommits,
        .tagUpdate])
  | r => (r, preGuardMutations gitDirExists dubiousOwnership)

/-! ### Basic lemmas about the split loop -/

theorem splitGo_ok (content : List Nat) (chunkSize : Nat) (failAt : Option Nat) :
    ∀ (ps : List Nat) (created : List (Nat × List Nat)),
    (∀ p ∈ ps, failAt ≠ some p) →
    splitGo content chunkSize failAt ps created =
      (.ok (created ++ ps.map (fun p => (p, chunkContent content chunkSize (p - 1)))),
       created ++ ps.map (fun p => (p, chunkContent content chunkSize (p - 1)))) := by
  intro ps
  induction ps with
  | nil => intro created _; simp [splitGo]
  | cons p rest ih =>
    intro created h
    have hp : failAt ≠ some p := h p (by simp)
    simp only [splitGo, if_neg hp]
    rw [ih _ (fun q hq => h q (by simp [hq]))]
    simp

theorem splitGo_fail (content : List Nat) (chunkSize : Nat) (k : Nat) :
    ∀ (ps : List Nat) (created : List (Nat × List Nat)), k ∈ ps →
    splitGo content chunkSize (some k) ps created = (.error (), []) := by
  intro ps
  induction ps with
  | nil => intro _ h; simp at h
  | cons p rest ih =>
    intro created h
    by_cases hpk : (some k : Option Nat) = some p
    · rw [splitGo, if_pos hpk]
    · have hk : k ∈ rest := by
        rcases List.mem_cons.mp h with h1 | h1
        · exact absurd (congrArg some h1) hpk
        · exact h1
      rw [splitGo, if_neg hpk]
      exact ih _ hk

theorem split_file_fail_eq (content : List Nat) (chunkSize k : Nat)
    (h1 : 1 ≤ k) (h2 : k ≤ totalParts content.length chunkSize + 1) :
    split_file content chunkSize (some k) = (.error (), ⟨some content, []⟩) := by
  set total := totalParts content.length chunkSize with htotal
  rcases Nat.lt_or_ge k (total + 1) with hk | hk
  · have hmem : k ∈ List.range' 1 total := by
      rw [List.mem_range'_1]
      exact ⟨h1, by omega⟩
    rw [split_file, ← htotal, splitGo_fail content chunkSize k _ _ hmem]
  · have hk1 : k = total + 1 := by omega
    have hnotmem : ∀ p ∈ List.range' 1 total, (some k : Option Nat) ≠ some p := by
      intro p hp
      rw [List.mem_range'_1] at hp
      simp only [ne_eq, Option.some.injEq]
      omega
    rw [split_file, ← htotal, splitGo_ok content chunkSize (some k) _ _ hnotmem]
    simp [hk1]

theorem split_file_ok_eq (content : List Nat) (chunkSize : Nat) :
    split_file content chunkSize none =
      (.ok (numberedChunks content chunkSize),
       ⟨none, numberedChunks content chunkSize⟩) := by
  rw [split_file, splitGo_ok content chunkSize none _ _ (by intro p _; simp)]
  simp [numberedChunks]

/-- C2: `split_file` is all-or-nothing.  With an exception injected at the
start of any part's iteration, or at the final unlink of the original, the
error is re-raised and the final state has the original file intact with its
content unchanged and no finalized chunk remaining; without an injected
exception the original is deleted (only at the very end) and exactly the
numbered chunks exist and are returned. -/
theorem split_file_all_or_nothing :
    (∀ (content : List Nat) (chunkSize k : Nat),
       1 ≤ k → k ≤ totalParts content.length chunkSize + 1 →
       split_file content chunkSize (some k) =
         (.error (), ⟨some content, []⟩))
  ∧ (∀ (content : List Nat) (chunkSize : Nat),
       split_file content chunkSize none =
         (.ok (numberedChunks content chunkSize),
          ⟨none, numberedChunks content chunkSize⟩)) :=
  ⟨split_file_fail_eq, split_file_ok_eq⟩

/-- Witness for C2 at a concrete input: a 3-byte file split with chunk size 2
(2 parts), failing at part 2. -/
theorem split_file_all_or_nothing_witness :
    split_file [10, 20, 30] 2 (some 2) = (.error (), ⟨some [10, 20, 30], []⟩) :=
  split_file_all_or_nothing.1 [10, 20, 30] 2 2 (by decide) (by decide)

/-- C10: splitting an existing empty file with any positive part size creates
no chunk files, deletes the original file, and returns the empty list. -/
theorem split_file_empty_file (chunkSize : Nat) (h : 0 < chunkSize) :
    split_file [] chunkSize none = (.ok [], ⟨none, []⟩) := by
  have htotal : totalParts (0 : Nat) chunkSize = 0 := by
    unfold totalParts
    rw [Nat.zero_add]
    exact Nat.div_eq_of_lt (by omega)
  rw [split_file_ok_eq]
  simp only [numberedChunks, List.length_nil]
  rw [htotal]
  rfl

/-- Witness for C10 at chunk size 5. -/
theorem split_file_empty_file_witness :
    0 < 5 ∧ split_file [] 5 none = (.ok [], ⟨none, []⟩) :=
  ⟨by decide, split_file_empty_file 5 (by decide)⟩

/-! ### Lemmas about the join group loop -/

theorem processGroup_skipped (d : Dir) (b : String) (g : List (Nat × List Nat))
    (h : groupComplete g = false) : processGroup d b g = (.skipped, d) := by
  simp [processGroup, h]

theorem processGroup_failed (d : Dir) (b : String) (g : List (Nat × List Nat))
    (h1 : groupComplete g = true) (h2 : (joinConcat g).length = 0) :
    processGroup d b g = (.failed, d) := by
  simp [processGroup, h1, h2]

theorem processGroup_joined (d : Dir) (b : String) (g : List (Nat × List Nat))
    (h1 : groupComplete g = true) (h2 : (joinConcat g).length ≠ 0) :
    processGroup d b g =
      (.joined,
       (d.filter (fun f => !(f.1 == FName.plain b || isChunkOfGroup b g f.1)))
         ++ [(FName.plain b, joinConcat g)]) := by
  simp [processGroup, h1, h2]

theorem joinGo_skip_step (es : List (String × Nat × List Nat)) (b1 : String)
    (rest : List String) (d : Dir) (hg : groupComplete (groupOf es b1) = false) :
    joinGo es (b1 :: rest) d = joinGo es rest d := by
  simp only [joinGo, processGroup_skipped d b1 _ hg]
  rfl

theorem joinGo_fail_step (es : List (String × Nat × List Nat)) (b1 : String)
    (rest : List String) (d : Dir) (hg : groupComplete (groupOf es b1) = true)
    (hlen : (joinConcat (groupOf es b1)).length = 0) :
    joinGo es (b1 :: rest) d = (d, some ()) := by
  simp only [joinGo, processGroup_failed d b1 _ hg hlen]
  rfl

theorem joinGo_join_step (es : List (String × Nat × List Nat)) (b1 : String)
    (rest : List String) (d : Dir) (hg : groupComplete (groupOf es b1) = true)
    (hlen : (joinConcat (groupOf es b1)).length ≠ 0) :
    joinGo es (b1 :: rest) d =
      joinGo es rest
        ((d.filter (fun f =>
            !(f.1 == FName.plain b1 || isChunkOfGroup b1 (groupOf es b1) f.1)))
          ++ [(FName.plain b1, joinConcat (groupOf es b1))]) := by
  simp only [joinGo, processGroup_joined d b1 _ hg hlen]
  rfl

theorem joinGo_preserves_chunk (es : List (String × Nat × List Nat)) (b : String)
    (hskip : groupComplete (groupOf es b) = false) (n : Nat) (c : List Nat) :
    ∀ (bases : List String) (d : Dir), (FName.chunk b n, c) ∈ d →
    (FName.chunk b n, c) ∈ (joinGo es bases d).1 := by
  intro bases
  induction bases with
  | nil => intro d hd; exact hd
  | cons b1 rest ih =>
    intro d hd
    by_cases hb : b1 = b
    · subst hb
      rw [joinGo_skip_step es b1 rest d hskip]
      exact ih d hd
    · by_cases hg : groupComplete (groupOf es b1) = true
      · by_cases hlen : (joinConcat (groupOf es b1)).length = 0
        · rw [joinGo_fail_step es b1 rest d hg hlen]
          exact hd
        · rw [joinGo_join_step es b1 rest d hg hlen]
          apply ih
          apply List.mem_append_left
          rw [List.mem_filter]
          refine ⟨hd, ?_⟩
          simp only [isChunkOfGroup, Bool.not_eq_eq_eq_not, Bool.not_true,
            Bool.or_eq_false_iff, Bool.and_eq_false_iff]
          exact ⟨by simp, Or.inl (by simpa using fun h => hb h.symm)⟩
      · rw [joinGo_skip_step es b1 rest d (Bool.not_eq_true _ ▸ hg)]
        exact ih d hd

theorem joinGo_no_new_target (es : List (String × Nat × List Nat)) (b : String)
    (hskip : groupComplete (groupOf es b) = false) :
    ∀ (bases : List String) (d : Dir), FName.plain b ∉ d.map Prod.fst →
    FName.plain b ∉ ((joinGo es bases d).1).map Prod.fst := by
  intro bases
  induction bases with
  | nil => intro d hd; exact hd
  | cons b1 rest ih =>
    intro d hd
    by_cases hb : b1 = b
    · subst hb
      rw [joinGo_skip_step es b1 rest d hskip]
      exact ih d hd
    · by_cases hg : groupComplete (groupOf es b1) = true
      · by_cases hlen : (joinConcat (groupOf es b1)).length = 0
        · rw [joinGo_fail_step es b1 rest d hg hlen]
          exact hd
        · rw [joinGo_join_step es b1 rest d hg hlen]
          apply ih
          intro hmem
          rw [List.map_append, List.mem_append] at hmem
          rcases hmem with hmem | hmem
          · rcases List.mem_map.mp hmem with ⟨f, hf, hf1⟩
            exact hd (List.mem_map.mpr ⟨f, (List.mem_filter.mp hf).1, hf1⟩)
          · simp only [List.map_cons, List.map_nil, List.mem_singleton] at hmem
            exact hb (by injection hmem with h; exact h.symm)
      · rw [joinGo_skip_step es b1 rest d (Bool.not_eq_true _ ▸ hg)]
        exact ih d hd

/-- C8: the join proceeds for a name-group iff the number of parts present
equals the numeric suffix of the last (highest-sorted) part; an incomplete
group is skipped without creating, modifying or deleting any file of that
group (its chunk files survive with unchanged content and no target file for
it appears), and the remaining groups of the directory are still processed
(the loop continues exactly as if the incomplete group were not scheduled). -/
theorem join_files_skips_incomplete :
    (∀ (d : Dir) (b : String) (g : List (Nat × List Nat)),
       ((processGroup d b g).1 ≠ .skipped) ↔ groupComplete g = true)
  ∧ (∀ (g : List (Nat × List Nat)),
       groupComplete g = true ↔
         ∃ last, (sortChunks g).getLast? = some last ∧ g.length = last.1)
  ∧ ∀ (dir : Dir) (b : String),
      groupComplete (groupOf (chunkEntries dir) b) = false →
        (∀ (n : Nat) (c : List Nat), (FName.chunk b n, c) ∈ dir →
           (FName.chunk b n, c) ∈ (join_files dir).1)
      ∧ (FName.plain b ∉ dir.map Prod.fst →
           FName.plain b ∉ ((join_files dir).1).map Prod.fst)
      ∧ (∀ (rest : List String) (d : Dir),
           joinGo (chunkEntries dir) (b :: rest) d = joinGo (chunkEntries dir) rest d) := by
  refine ⟨?_, ?_, ?_⟩
  · intro d b g
    by_cases hg : groupComplete g = true
    · by_cases hlen : (joinConcat g).length = 0
      · rw [processGroup_failed d b g hg hlen]
        simp [hg]
      · rw [processGroup_joined d b g hg hlen]
        simp [hg]
    · have hg1 : groupComplete g = false := Bool.not_eq_true _ ▸ hg
      rw [processGroup_skipped d b g hg1]
      simp [hg1]
  · intro g
    have hlen : (sortChunks g).length = g.length :=
      List.length_insertionSort _ g
    cases hlast : (sortChunks g).getLast? with
    | none => simp [groupComplete, hlast]
    | some last =>
      simp only [groupComplete, hlast, beq_iff_eq, hlen]
      constructor
      · intro h; exact ⟨last, rfl, h⟩
      · rintro ⟨l2, hl2, he⟩
        obtain rfl : last = l2 := by injection hl2
        exact he
  · intro dir b hskip
    refine ⟨?_, ?_, ?_⟩
    · intro n c hmem
      exact joinGo_preserves_chunk (chunkEntries dir) b hskip n c _ dir hmem
    · intro hmem
      exact joinGo_no_new_target (chunkEntries dir) b hskip _ dir hmem
    · intro rest d
      exact joinGo_skip_step (chunkEntries dir) b rest d hskip

/-- Witness for C8 at a concrete directory: group "a" has parts 1 and 3 (the
last sorted part is numbered 3 but only 2 parts are present, so the group is
incomplete) alongside a complete group "c"; the chunks of "a" survive the
join untouched. -/
theorem join_files_skips_incomplete_witness :
    (FName.chunk "a" 1, [7]) ∈
      (join_files [(FName.chunk "a" 1, [7]), (FName.chunk "a" 3, [8]),
                   (FName.chunk "c" 1, [5])]).1 :=
  ((join_files_skips_incomplete.2.2
      [(FName.chunk "a" 1, [7]), (FName.chunk "a" 3, [8]), (FName.chunk "c" 1, [5])]
      "a" (by decide)).1) 1 [7] (by decide)

/-! ### Arithmetic of the part count and chunk contents -/

theorem totalParts_eq (n cs : Nat) (hn : 0 < n) (hcs : 0 < cs) :
    totalParts n cs = (n - 1) / cs + 1 := by
  unfold totalParts
  have h1 : n + cs - 1 = (n - 1) + cs := by omega
  rw [h1, Nat.add_div_right _ hcs]

theorem totalParts_zero (cs : Nat) (hcs : 0 < cs) : totalParts 0 cs = 0 := by
  unfold totalParts
  rw [Nat.zero_add]
  exact Nat.div_eq_of_lt (by omega)

theorem totalParts_pos (n cs : Nat) (hn : 0 < n) (hcs : 0 < cs) :
    0 < totalParts n cs := by
  rw [totalParts_eq n cs hn hcs]
  exact Nat.succ_pos _

theorem totalParts_succ (n cs : Nat) (hn : 0 < n) (hcs : 0 < cs) :
    totalParts n cs = totalParts (n - cs) cs + 1 := by
  rcases le_or_lt n cs with h | h
  · have h0 : n - cs = 0 := by omega
    rw [h0, totalParts_zero cs hcs, totalParts_eq n cs hn hcs,
      Nat.div_eq_of_lt (by omega)]
  · rw [totalParts_eq n cs hn hcs, totalParts_eq (n - cs) cs (by omega) hcs]
    have h2 : n - 1 = (n - cs - 1) + cs := by omega
    rw [h2, Nat.add_div_right _ hcs]

theorem chunkContent_zero (content : List Nat) (cs : Nat) :
    chunkContent content cs 0 = content.take cs := by
  simp [chunkContent]

theorem chunkContent_succ (content : List Nat) (cs q : Nat) :
    chunkContent content cs (q + 1) = chunkContent (content.drop cs) cs q := by
  unfold chunkContent
  rw [List.drop_drop]
  have h : cs + q * cs = (q + 1) * cs := by ring
  rw [h]

/-- Concatenating the part contents in part order reproduces the original
content. -/
theorem chunks_flatten (cs : Nat) (hcs : 0 < cs) :
    ∀ (n : Nat) (content : List Nat), content.length = n →
    ((List.range' 1 (totalParts content.length cs)).map
      (fun p => chunkContent content cs (p - 1))).flatten = content := by
  intro n
  induction n using Nat.strong_induction_on with
  | _ n ih =>
    intro content hlen
    by_cases hne : content = []
    · subst hne
      simp [totalParts_zero cs hcs]
    · have hpos : 0 < content.length := List.length_pos.mpr hne
      rw [totalParts_succ _ _ hpos hcs, List.range'_succ, List.map_cons,
        List.flatten_cons]
      have h2 : List.range' (1 + 1) (totalParts (content.length - cs) cs) =
          (List.range' 1 (totalParts (content.length - cs) cs)).map (1 + ·) :=
        (List.map_add_range' 1 1 _ 1).symm
      rw [h2, List.map_map]
      have h3 : ∀ q ∈ List.range' 1 (totalParts (content.length - cs) cs),
          ((fun p => chunkContent content cs (p - 1)) ∘ (1 + ·)) q =
            (fun p => chunkContent (content.drop cs) cs (p - 1)) q := by
        intro q hq
        have hq1 : 1 ≤ q := (List.mem_range'_1.mp hq).1
        simp only [Function.comp_apply]
        have he : 1 + q - 1 = (q - 1) + 1 := by omega
        rw [he, chunkContent_succ]
      rw [List.map_congr_left h3]
      have hdroplen : (content.drop cs).length = content.length - cs := by simp
      have hlt : content.length - cs < n := by omega
      rw [← hdroplen]
      rw [ih _ hlt (content.drop cs) hdroplen]
      have h0 : (1 : Nat) - 1 = 0 := rfl
      rw [h0, chunkContent_zero, List.take_append_drop]

/-! ### The directory produced by a successful split, seen by join_files -/

theorem chunkEntries_map_chunk (base : String) :
    ∀ (l : List (Nat × List Nat)), (∀ x ∈ l, x.1 < 1000) →
    chunkEntries (l.map (fun pc => (FName.chunk base pc.1, pc.2))) =
      l.map (fun pc => (base, pc.1, pc.2)) := by
  intro l
  induction l with
  | nil => intro _; rfl
  | cons pc rest ih =>
    intro h
    have h1 : pc.1 < 1000 := h pc (by simp)
    have hrest := ih (fun x hx => h x (by simp [hx]))
    simp only [chunkEntries] at hrest ⊢
    simp [h1, hrest]

theorem numberedChunks_num_lt (content : List Nat) (cs : Nat)
    (hparts : totalParts content.length cs ≤ 999) :
    ∀ x ∈ numberedChunks content cs, x.1 < 1000 := by
  intro x hx
  rcases List.mem_map.mp hx with ⟨p, hp, rfl⟩
  have := (List.mem_range'_1.mp hp).2
  omega

theorem basesAux_const :
    ∀ (es : List (String × Nat × List Nat)) (acc : List String),
    (∀ e ∈ es, acc.contains e.1 = true) → basesAux es acc = acc := by
  intro es
  induction es with
  | nil => intro acc _; rfl
  | cons e rest ih =>
    intro acc h
    rw [basesAux, if_pos (h e (by simp))]
    exact ih acc (fun x hx => h x (by simp [hx]))

theorem basesInOrder_const (base : String) :
    ∀ (l : List (String × Nat × List Nat)), l ≠ [] → (∀ e ∈ l, e.1 = base) →
    basesInOrder l = [base] := by
  intro l hne h
  match l with
  | [] => exact absurd rfl hne
  | e :: rest =>
    have he : e.1 = base := h e (by simp)
    rw [basesInOrder, basesAux]
    have hc : (([] : List String).contains e.1) = false := rfl
    rw [hc]
    simp only [Bool.false_eq_true, if_false, List.nil_append]
    rw [he]
    apply basesAux_const
    intro x hx
    rw [h x (by simp [hx])]
    simp

theorem groupOf_map_triple (base : String) (l : List (Nat × List Nat)) :
    groupOf (l.map (fun pc => (base, pc.1, pc.2))) base = l := by
  unfold groupOf
  rw [List.filter_map]
  have h1 : ((fun e : String × Nat × List Nat => e.1 == base) ∘
      (fun pc : Nat × List Nat => (base, pc.1, pc.2))) = fun _ => true := by
    funext pc
    simp
  rw [h1]
  simp

theorem sortChunks_numberedChunks (content : List Nat) (cs : Nat) :
    sortChunks (numberedChunks content cs) = numberedChunks content cs := by
  apply List.Sorted.insertionSort_eq
  unfold numberedChunks List.Sorted
  rw [List.pairwise_map]
  exact (List.pairwise_lt_range' 1 _ 1).imp (fun h => Nat.le_of_lt h)

theorem groupComplete_numberedChunks (content : List Nat) (cs : Nat)
    (hne : content ≠ []) (hcs : 0 < cs) :
    groupComplete (numberedChunks content cs) = true := by
  have hpos : 0 < totalParts content.length cs :=
    totalParts_pos _ cs (List.length_pos.mpr hne) hcs
  obtain ⟨t, ht⟩ : ∃ t, totalParts content.length cs = t + 1 :=
    ⟨_, (Nat.succ_pred_eq_of_pos hpos).symm⟩
  unfold groupComplete
  rw [sortChunks_numberedChunks]
  unfold numberedChunks
  rw [ht, List.range'_concat, List.map_append, List.map_cons, List.map_nil,
    List.getLast?_concat]
  simp only [List.length_append, List.length_map, List.length_range',
    List.length_cons, List.length_nil]
  have : 1 + 1 * t = t + 1 := by omega
  rw [this]
  simp

theorem joinConcat_numberedChunks (content : List Nat) (cs : Nat) (hcs : 0 < cs) :
    joinConcat (numberedChunks content cs) = content := by
  unfold joinConcat
  rw [sortChunks_numberedChunks]
  unfold numberedChunks
  rw [List.map_map]
  exact chunks_flatten cs hcs content.length content rfl

theorem splitDir_filter_nil (base : String) (content : List Nat) (cs : Nat) :
    (splitDir base content cs).filter (fun f =>
      !(f.1 == FName.plain base ||
        isChunkOfGroup base (numberedChunks content cs) f.1)) = [] := by
  rw [List.filter_eq_nil_iff]
  intro a ha
  rcases List.mem_map.mp ha with ⟨pc, hpc, rfl⟩
  have hany : (numberedChunks content cs).any (fun q => q.1 == pc.1) = true :=
    List.any_eq_true.mpr ⟨pc, hpc, by simp⟩
  simp [isChunkOfGroup, hany]

/-- C1 (amended): for every file of nonempty content, every positive part
size, and a part count at most 999 (the glob pattern `*.gc.[0-9][0-9][0-9]`
only matches three-digit part numbers), joining the directory left by a
successful split reproduces the original file byte for byte. -/
theorem split_then_join_roundtrip (base : String) (content : List Nat) (cs : Nat)
    (hne : content ≠ []) (hcs : 0 < cs)
    (hparts : totalParts content.length cs ≤ 999) :
    join_files (splitDir base content cs) = ([(FName.plain base, content)], none) := by
  have hlt := numberedChunks_num_lt content cs hparts
  have hes := chunkEntries_map_chunk base (numberedChunks content cs) hlt
  have hnclne : numberedChunks content cs ≠ [] := by
    intro h0
    have := congrArg List.length h0
    simp only [numberedChunks, List.length_map, List.length_range',
      List.length_nil] at this
    exact absurd this (Nat.pos_iff_ne_zero.mp
      (totalParts_pos _ cs (List.length_pos.mpr hne) hcs))
  unfold join_files splitDir
  rw [hes]
  rw [basesInOrder_const base _ (by simpa using hnclne)
    (by intro e he; rcases List.mem_map.mp he with ⟨pc, _, rfl⟩; rfl)]
  have hgroup : groupOf ((numberedChunks content cs).map
      (fun pc => (base, pc.1, pc.2))) base = numberedChunks content cs :=
    groupOf_map_triple base _
  rw [joinGo_join_step _ base [] _
    (by rw [hgroup]; exact groupComplete_numberedChunks content cs hne hcs)
    (by rw [hgroup, joinConcat_numberedChunks content cs hcs]
        simpa using hne)]
  rw [hgroup, joinConcat_numberedChunks content cs hcs]
  have hfil := splitDir_filter_nil base content cs
  unfold splitDir at hfil
  rw [hfil]
  rfl

/-- Witness for the amended C1: a 3-byte file split at part size 2. -/
theorem split_then_join_roundtrip_witness :
    join_files (splitDir "data" [1, 2, 3] 2) =
      ([(FName.plain "data", [1, 2, 3])], none) :=
  split_then_join_roundtrip "data" [1, 2, 3] 2 (by decide) (by decide) (by decide)

/-! ### Helper computations for the over-999-parts failure -/

theorem chunkEntries_map_chunk_all (base : String) :
    ∀ (l : List (Nat × List Nat)),
    chunkEntries (l.map (fun pc => (FName.chunk base pc.1, pc.2))) =
      (l.filter (fun pc => decide (pc.1 < 1000))).map
        (fun pc => (base, pc.1, pc.2)) := by
  intro l
  induction l with
  | nil => rfl
  | cons pc rest ih =>
    by_cases h : pc.1 < 1000
    · rw [List.filter_cons_of_pos (by simpa using h)]
      simp only [chunkEntries] at ih ⊢
      simp [h, ih]
    · rw [List.filter_cons_of_neg (by simpa using h)]
      simp only [chunkEntries] at ih ⊢
      simp [h, ih]

theorem numberedChunks_replicate_1000 :
    numberedChunks (List.replicate 1000 (0 : Nat)) 1 =
      (List.range' 1 1000).map (fun p => (p, [0])) := by
  unfold numberedChunks
  rw [List.length_replicate, show totalParts 1000 1 = 1000 from by decide]
  apply List.map_congr_left
  intro p hp
  have hp1 := List.mem_range'_1.mp hp
  have hcc : chunkContent (List.replicate 1000 (0 : Nat)) 1 (p - 1) = [0] := by
    unfold chunkContent
    rw [Nat.mul_one, List.drop_replicate, List.take_replicate,
      show min 1 (1000 - (p - 1)) = 1 from by omega]
    rfl
  rw [hcc]

theorem sortChunks_range'_map (f : Nat → List Nat) (s n : Nat) :
    sortChunks ((List.range' s n).map (fun p => (p, f p))) =
      (List.range' s n).map (fun p => (p, f p)) := by
  apply List.Sorted.insertionSort_eq
  unfold List.Sorted
  rw [List.pairwise_map]
  exact (List.pairwise_lt_range' s n 1).imp (fun h => Nat.le_of_lt h)

theorem groupComplete_range'_map (f : Nat → List Nat) (t : Nat) :
    groupComplete ((List.range' 1 (t + 1)).map (fun p => (p, f p))) = true := by
  unfold groupComplete
  rw [sortChunks_range'_map]
  rw [List.range'_concat, List.map_append, List.map_cons, List.map_nil,
    List.getLast?_concat]
  simp only [List.length_append, List.length_map, List.length_range',
    List.length_cons, List.length_nil]
  rw [show 1 + 1 * t = t + 1 from by omega]
  simp

theorem flatten_const_singleton :
    ∀ (n s : Nat),
    ((List.range' s n).map (fun _ => [(0 : Nat)])).flatten =
      List.replicate n 0 := by
  intro n
  induction n with
  | zero => intro s; rfl
  | succ m ih =>
    intro s
    rw [List.range'_succ, List.map_cons, List.flatten_cons, ih (s + 1)]
    rfl

/-- Counterexample to C1 as stated, in both of its failure modes.
First, an (existing) empty file: `split_file` succeeds, deletes the original,
and creates no parts, so joining the directory yields no file at all.
Second, a 1000-byte file split at part size 1 (1000 parts): the final part is
named `.gc.1000`, which the three-digit glob `*.gc.[0-9][0-9][0-9]` does not
match, so the join sees parts 1–999, finds the group "complete"
(999 parts, last suffix 999), and silently reconstructs a 999-byte file —
not `f` — while the `.gc.1000` chunk is left behind. -/
theorem split_roundtrip_counterexample :
    ((split_file [] 5 none).2.original = none
  ∧ splitDir "f" [] 5 = []
  ∧ join_files (splitDir "f" [] 5) = ([], none)
  ∧ (FName.plain "f", ([] : List Nat)) ∉ (join_files (splitDir "f" [] 5)).1)
  ∧ (join_files (splitDir "g" (List.replicate 1000 (0 : Nat)) 1) =
      ([(FName.chunk "g" 1000, [0]),
        (FName.plain "g", List.replicate 999 0)], none)
  ∧ (FName.plain "g", List.replicate 1000 (0 : Nat)) ∉
      (join_files (splitDir "g" (List.replicate 1000 (0 : Nat)) 1)).1) := by
  have heq : join_files (splitDir "g" (List.replicate 1000 (0 : Nat)) 1) =
      ([(FName.chunk "g" 1000, [0]),
        (FName.plain "g", List.replicate 999 0)], none) := by
    have hdir : splitDir "g" (List.replicate 1000 (0 : Nat)) 1 =
        (List.range' 1 1000).map (fun p => (FName.chunk "g" p, [0])) := by
      unfold splitDir
      rw [numberedChunks_replicate_1000, List.map_map]
      rfl
    have hmapform : (List.range' 1 1000).map
        (fun p => (FName.chunk "g" p, ([0] : List Nat))) =
        ((List.range' 1 1000).map (fun p => (p, ([0] : List Nat)))).map
          (fun pc => (FName.chunk "g" pc.1, pc.2)) := by
      rw [List.map_map]
      rfl
    have hsplit1000 : List.range' 1 1000 = List.range' 1 999 ++ [1000] := by
      have h := List.range'_append 1 999 1 1
      simp at h
      rw [← h]
    have hfil : (List.range' 1 1000).filter (fun p => decide (p < 1000)) =
        List.range' 1 999 := by
      rw [hsplit1000, List.filter_append]
      rw [List.filter_eq_self.mpr (by
        intro a ha
        have := (List.mem_range'_1.mp ha).2
        simpa using (by omega : a < 1000))]
      rw [List.filter_cons_of_neg (by simp), List.filter_nil, List.append_nil]
    have hes : chunkEntries ((List.range' 1 1000).map
        (fun p => (FName.chunk "g" p, [0]))) =
        (List.range' 1 999).map (fun p => ("g", p, [0])) := by
      rw [hmapform, chunkEntries_map_chunk_all, List.filter_map]
      rw [show ((fun pc : Nat × List Nat => decide (pc.1 < 1000)) ∘
          (fun p : Nat => (p, ([0] : List Nat)))) =
          (fun p : Nat => decide (p < 1000)) from rfl]
      rw [hfil, List.map_map]
      rfl
    have hbases : basesInOrder ((List.range' 1 999).map
        (fun p => ("g", p, [0]))) = ["g"] := by
      apply basesInOrder_const
      · intro h0
        have := congrArg List.length h0
        simp at this
      · intro e he
        rcases List.mem_map.mp he with ⟨p, _, rfl⟩
        rfl
    have hgroup : groupOf ((List.range' 1 999).map (fun p => ("g", p, [0])))
        "g" = (List.range' 1 999).map (fun p => (p, [0])) := by
      rw [show (List.range' 1 999).map
          (fun p => (("g" : String), p, ([0] : List Nat))) =
          ((List.range' 1 999).map (fun p => (p, ([0] : List Nat)))).map
            (fun pc => ("g", pc.1, pc.2)) from by rw [List.map_map]; rfl]
      exact groupOf_map_triple "g" _
    have hcomplete : groupComplete ((List.range' 1 999).map
        (fun p => (p, ([0] : List Nat)))) = true :=
      groupComplete_range'_map (fun _ => [0]) 998
    have hconcat : joinConcat ((List.range' 1 999).map
        (fun p => (p, ([0] : List Nat)))) = List.replicate 999 0 := by
      unfold joinConcat
      rw [sortChunks_range'_map (fun _ => [0]) 1 999, List.map_map]
      exact flatten_const_singleton 999 1
    have hfilter : ((List.range' 1 1000).map
        (fun p => (FName.chunk "g" p, ([0] : List Nat)))).filter
        (fun f => !(f.1 == FName.plain "g" ||
          isChunkOfGroup "g" ((List.range' 1 999).map (fun p => (p, [0])))
            f.1)) = [(FName.chunk "g" 1000, [0])] := by
      rw [hsplit1000, List.map_append, List.filter_append]
      have hnil : ((List.range' 1 999).map
          (fun p => (FName.chunk "g" p, ([0] : List Nat)))).filter
          (fun f => !(f.1 == FName.plain "g" ||
            isChunkOfGroup "g" ((List.range' 1 999).map (fun p => (p, [0])))
              f.1)) = [] := by
        rw [List.filter_eq_nil_iff]
        intro a ha
        rcases List.mem_map.mp ha with ⟨p, hp, rfl⟩
        have hany : ((List.range' 1 999).map
            (fun q => (q, ([0] : List Nat)))).any (fun x => x.1 == p) = true :=
          List.any_eq_true.mpr ⟨(p, [0]), List.mem_map.mpr ⟨p, hp, rfl⟩, by simp⟩
        simp [isChunkOfGroup, hany]
      have hkeep : ([(FName.chunk "g" 1000, ([0] : List Nat))]).filter
          (fun f => !(f.1 == FName.plain "g" ||
            isChunkOfGroup "g" ((List.range' 1 999).map (fun p => (p, [0])))
              f.1)) = [(FName.chunk "g" 1000, [0])] := by
        have hany : ((List.range' 1 999).map
            (fun q => (q, ([0] : List Nat)))).any
            (fun x => x.1 == 1000) = false := by
          rw [List.any_eq_false]
          intro x hx
          rcases List.mem_map.mp hx with ⟨q, hq, rfl⟩
          have hqb := (List.mem_range'_1.mp hq).2
          intro hx1
          have hq1000 : q = 1000 := by simpa using hx1
          omega
        rw [List.filter_cons_of_pos (by simp [isChunkOfGroup, hany]),
          List.filter_nil]
      rw [hnil, List.map_cons, List.map_nil, hkeep, List.nil_append]
    unfold join_files
    rw [hdir, hes, hbases]
    rw [joinGo_join_step _ "g" [] _
      (by rw [hgroup]; exact hcomplete)
      (by rw [hgroup, hconcat, List.length_replicate]; omega)]
    rw [hgroup, hconcat, hfilter]
    rfl
  have heq1 : (join_files (splitDir "g" (List.replicate 1000 (0 : Nat)) 1)).1 =
      [(FName.chunk "g" 1000, [0]),
       (FName.plain "g", List.replicate 999 0)] := by
    rw [heq]
  refine ⟨⟨by decide, by decide, by decide, by decide⟩, heq, ?_⟩
  rw [heq1]
  intro hmem
  rcases List.mem_cons.mp hmem with h | h
  · exact FName.noConfusion (congrArg Prod.fst h)
  rcases List.mem_cons.mp h with h | h
  · have := congrArg (fun q : FName × List Nat => q.2.length) h
    simp only [List.length_replicate] at this
    omega
  · exact absurd h (List.not_mem_nil _)

/-! ### Lemmas about the batch planner -/

instance : IsTotal (String × Nat) (fun a b : String × Nat => a.2 ≤ b.2) :=
  ⟨fun a b => Nat.le_total a.2 b.2⟩

instance : IsTrans (String × Nat) (fun a b : String × Nat => a.2 ≤ b.2) :=
  ⟨fun _ _ _ => Nat.le_trans⟩

theorem batchGo_eq_map_batchGoS :
    ∀ (fs : List (String × Nat)) (size : Nat) (cur : List (String × Nat))
      (acc : List (List (String × Nat))),
    batchGo fs size (cur.map Prod.fst) (acc.map (List.map Prod.fst)) =
      (batchGoS fs size cur acc).map (List.map Prod.fst) := by
  intro fs
  induction fs with
  | nil =>
    intro size cur acc
    rw [batchGo, batchGoS]
    cases cur with
    | nil => simp
    | cons c t => simp
  | cons fs1 rest ih =>
    intro size cur acc
    obtain ⟨f, s⟩ := fs1
    rw [batchGo, batchGoS]
    by_cases hb : MAX_BATCH_SIZE_BYTES < size + s
    · rw [if_pos hb, if_pos hb]
      cases cur with
      | nil =>
        simpa using ih s [(f, s)] acc
      | cons c t =>
        have h1 := ih s [(f, s)] (acc ++ [c :: t])
        simpa using h1
    · rw [if_neg hb, if_neg hb]
      have h1 := ih (size + s) (cur ++ [(f, s)]) acc
      simpa using h1

theorem batchGoS_flatten :
    ∀ (fs : List (String × Nat)) (size : Nat) (cur : List (String × Nat))
      (acc : List (List (String × Nat))),
    (batchGoS fs size cur acc).flatten = acc.flatten ++ cur ++ fs := by
  intro fs
  induction fs with
  | nil =>
    intro size cur acc
    rw [batchGoS]
    cases cur with
    | nil => simp
    | cons c t => simp
  | cons fs1 rest ih =>
    intro size cur acc
    obtain ⟨f, s⟩ := fs1
    rw [batchGoS]
    by_cases hb : MAX_BATCH_SIZE_BYTES < size + s
    · rw [if_pos hb]
      cases cur with
      | nil => simp [ih]
      | cons c t => simp [ih]
    · rw [if_neg hb]
      simp [ih]

/-- The budget invariant of a single batch: within budget, or an over-budget
singleton. -/
def goodBatch (b : List (String × Nat)) : Prop :=
  batchSize b ≤ MAX_BATCH_SIZE_BYTES ∨
    ∃ f s, b = [(f, s)] ∧ MAX_BATCH_SIZE_BYTES < s

theorem batchGoS_good :
    ∀ (fs : List (String × Nat)) (size : Nat) (cur : List (String × Nat))
      (acc : List (List (String × Nat))),
    (∀ b ∈ acc, goodBatch b) → batchSize cur = size →
    (size ≤ MAX_BATCH_SIZE_BYTES ∨ ∃ f s, cur = [(f, s)] ∧ MAX_BATCH_SIZE_BYTES < s) →
    ∀ b ∈ batchGoS fs size cur acc, goodBatch b := by
  intro fs
  have hgoodcur : ∀ (size : Nat) (cur : List (String × Nat)),
      batchSize cur = size →
      (size ≤ MAX_BATCH_SIZE_BYTES ∨ ∃ f s, cur = [(f, s)] ∧ MAX_BATCH_SIZE_BYTES < s) →
      goodBatch cur := by
    intro size cur hsz hok
    rcases hok with hok | hok
    · exact Or.inl (hsz ▸ hok)
    · exact Or.inr hok
  induction fs with
  | nil =>
    intro size cur acc hacc hsz hok b hb
    rw [batchGoS] at hb
    by_cases hc : cur.isEmpty
    · rw [if_pos hc] at hb
      exact hacc b hb
    · rw [if_neg hc] at hb
      rcases List.mem_append.mp hb with hb | hb
      · exact hacc b hb
      · rw [List.mem_singleton] at hb
        exact hb ▸ hgoodcur size cur hsz hok
  | cons fs1 rest ih =>
    intro size cur acc hacc hsz hok b hb
    obtain ⟨f, s⟩ := fs1
    rw [batchGoS] at hb
    by_cases hbud : MAX_BATCH_SIZE_BYTES < size + s
    · rw [if_pos hbud] at hb
      have hacc1 : ∀ b1 ∈ (if cur.isEmpty then acc else acc ++ [cur]), goodBatch b1 := by
        intro b1 hb1
        by_cases hc : cur.isEmpty
        · rw [if_pos hc] at hb1
          exact hacc b1 hb1
        · rw [if_neg hc] at hb1
          rcases List.mem_append.mp hb1 with hb1 | hb1
          · exact hacc b1 hb1
          · rw [List.mem_singleton] at hb1
            exact hb1 ▸ hgoodcur size cur hsz hok
      refine ih s [(f, s)] _ hacc1 (by simp [batchSize]) ?_ b hb
      rcases le_or_lt s MAX_BATCH_SIZE_BYTES with hs | hs
      · exact Or.inl hs
      · exact Or.inr ⟨f, s, rfl, hs⟩
    · rw [if_neg hbud] at hb
      refine ih (size + s) (cur ++ [(f, s)]) acc hacc ?_ ?_ b hb
      · simp [batchSize] at hsz ⊢
        omega
      · exact Or.inl (Nat.le_of_not_lt hbud)

theorem countP_le_countP_flatten (x : String × Nat) :
    ∀ (l : List (List (String × Nat))),
    l.countP (fun b => decide (x ∈ b)) ≤
      (l.flatten).countP (fun y => decide (y = x)) := by
  intro l
  induction l with
  | nil => simp
  | cons b t ih =>
    rw [List.countP_cons, List.flatten_cons, List.countP_append]
    by_cases hx : x ∈ b
    · have h1 : 0 < b.countP (fun y => decide (y = x)) :=
        List.countP_pos_iff.mpr ⟨x, hx, by simp⟩
      rw [decide_eq_true hx, if_pos rfl]
      omega
    · rw [decide_eq_false hx]
      simp only [Bool.false_eq_true, if_false]
      omega

theorem countP_eq_one_of_nodup_mem (x : String × Nat) :
    ∀ (l : List (String × Nat)), l.Nodup → x ∈ l →
    l.countP (fun y => decide (y = x)) = 1 := by
  intro l
  induction l with
  | nil => intro _ h; simp at h
  | cons a t ih =>
    intro hnd hx
    have hnd1 := List.nodup_cons.mp hnd
    rw [List.countP_cons]
    by_cases hax : a = x
    · subst hax
      have h0 : t.countP (fun y => decide (y = a)) = 0 :=
        List.countP_eq_zero.mpr (fun y hy => by
          simp only [decide_eq_true_eq]
          intro he
          exact hnd1.1 (he ▸ hy))
      rw [h0, decide_eq_true rfl, if_pos rfl]
    · have hxt : x ∈ t := by
        rcases List.mem_cons.mp hx with h | h
        · exact absurd h.symm hax
        · exact h
      rw [ih hnd1.2 hxt, decide_eq_false hax]
      simp

/-- C6: every batch produced by the planner is within the byte budget, except
singleton batches whose sole member alone exceeds the budget; such an
over-budget file is admitted as its own batch.  (`batch_files` keeps only the
file names; `batchFilesSized` is the same loop retaining sizes, and the second
conjunct ties the two together.) -/
theorem batch_files_budget (files : FilesFiltered) :
    (∀ b ∈ batchFilesSized files.files_to_batch,
       batchSize b ≤ MAX_BATCH_SIZE_BYTES ∨
         ∃ f s, b = [(f, s)] ∧ MAX_BATCH_SIZE_BYTES < s)
  ∧ (batch_files files).to_add =
      (batchFilesSized files.files_to_batch).map (List.map Prod.fst) := by
  constructor
  · intro b hb
    exact batchGoS_good files.files_to_batch 0 [] [] (by simp)
      (by simp [batchSize]) (Or.inl (Nat.zero_le _)) b hb
  · have h := batchGo_eq_map_batchGoS files.files_to_batch 0 [] []
    simpa [batch_files, batchFilesSized] using h

/-- Witness for C6: a single 400 MiB file exceeds the 300 MiB budget and is
admitted as its own singleton batch. -/
theorem batch_files_budget_witness :
    batchSize [("a", 400 * 1024 * 1024)] ≤ MAX_BATCH_SIZE_BYTES ∨
      ∃ f s, [("a", 400 * 1024 * 1024)] = [(f, s)] ∧ MAX_BATCH_SIZE_BYTES < s :=
  (batch_files_budget ⟨[("a", 400 * 1024 * 1024)], [], [], []⟩).1
    [("a", 400 * 1024 * 1024)] (by decide)

/-- C7: the classifier emits `files_to_batch` sorted ascending by size, and
the planner covers it exactly: the concatenation of the sized batches is the
input list itself (hence order is preserved), and under distinct entries each
input file lies in exactly one batch. -/
theorem batch_files_coverage :
    (∀ (stat : String → Option Nat) (st : GitStatus),
       List.Sorted (fun a b : String × Nat => a.2 ≤ b.2)
         (filter_files_from_status stat st).files_to_batch)
  ∧ (∀ (files : FilesFiltered),
       (batchFilesSized files.files_to_batch).flatten = files.files_to_batch
     ∧ (batch_files files).to_add =
         (batchFilesSized files.files_to_batch).map (List.map Prod.fst)
     ∧ (files.files_to_batch.Nodup →
        ∀ x ∈ files.files_to_batch,
          (batchFilesSized files.files_to_batch).countP
            (fun b => decide (x ∈ b)) = 1)) := by
  constructor
  · intro stat st
    exact List.sorted_insertionSort _ _
  · intro files
    have hflat : (batchFilesSized files.files_to_batch).flatten =
        files.files_to_batch := by
      have h := batchGoS_flatten files.files_to_batch 0 [] []
      simpa [batchFilesSized] using h
    refine ⟨hflat, ?_, ?_⟩
    · have h := batchGo_eq_map_batchGoS files.files_to_batch 0 [] []
      simpa [batch_files, batchFilesSized] using h
    · intro hnd x hx
      have hle : (batchFilesSized files.files_to_batch).countP
          (fun b => decide (x ∈ b)) ≤ 1 := by
        have h1 := countP_le_countP_flatten x (batchFilesSized files.files_to_batch)
        rw [hflat, countP_eq_one_of_nodup_mem x _ hnd hx] at h1
        exact h1
      have hge : 0 < (batchFilesSized files.files_to_batch).countP
          (fun b => decide (x ∈ b)) := by
        rw [List.countP_pos_iff]
        have hx1 : x ∈ (batchFilesSized files.files_to_batch).flatten := by
          rw [hflat]; exact hx
        rcases List.mem_flatten.mp hx1 with ⟨b, hb, hxb⟩
        exact ⟨b, hb, by simpa using hxb⟩
      omega

/-- Witness for C7: two distinct files; each ends up in exactly one batch. -/
theorem batch_files_coverage_witness :
    (batchFilesSized [("a", 1), ("b", 2)]).countP
      (fun b => decide ((("a", 1) : String × Nat) ∈ b)) = 1 :=
  (batch_files_coverage.2 ⟨[("a", 1), ("b", 2)], [], [], []⟩).2.2
    (by decide) ("a", 1) (by decide)

/-! ### Sync classification and reconciliation -/

/-- C4: the sync-state classification returns exactly the five states as
specified, in the code's test order: missing remote branch ref yields
NO_REMOTE; a commit-less local repository yields BEHIND; equal commits yield
EQUAL; remote tip an ancestor of the local head yields AHEAD; local head an
ancestor of the remote tip yields BEHIND; neither ancestor yields DIVERGED. -/
theorem get_sync_status_cases :
    (∀ b2 b3 b4 b5, get_sync_status false b2 b3 b4 b5 = .NO_REMOTE)
  ∧ (∀ b3 b4 b5, get_sync_status true true b3 b4 b5 = .BEHIND)
  ∧ (∀ b4 b5, get_sync_status true false true b4 b5 = .EQUAL)
  ∧ (∀ b5, get_sync_status true false false true b5 = .AHEAD)
  ∧ get_sync_status true false false false true = .BEHIND
  ∧ get_sync_status true false false false false = .DIVERGED := by
  refine ⟨?_, ?_, ?_, ?_, rfl, rfl⟩ <;> (intros; rfl)

/-- Counterexample to C5 as stated: the BEHIND arm runs a mode-less
`git reset`, which defaults to `--mixed` and leaves the working tree
untouched.  With head/index/worktree all at tree 0 and a remote tip whose
tree is 1, the working tree after reconciliation is still 0, not the remote
tip's tree. -/
theorem sync_behind_counterexample :
    ¬ ((sync_with_remote_shallow (fun t => t) .BEHIND ⟨some 0, 0, 0⟩ 1).1 =
        git_reset_hard (fun t => t) 1) := by
  decide

/-- C5 (amended): when the reconciler classifies the repository as BEHIND it
moves the local head to the remote tip and resets the index to the remote
tip's tree via a mixed (mode-less) reset; the working tree is left
unchanged. -/
theorem sync_behind_mixed (commitTree : Nat → Nat) (s : RepoState) (tip : Nat) :
    (sync_with_remote_shallow commitTree .BEHIND s tip).1.head = some tip
  ∧ (sync_with_remote_shallow commitTree .BEHIND s tip).1.index = commitTree tip
  ∧ (sync_with_remote_shallow commitTree .BEHIND s tip).1.worktree = s.worktree :=
  ⟨rfl, rfl, rfl⟩

/-! ### Push pipeline trace -/

theorem pushLoop_intersperse (branch : String) (delay : Nat) :
    ∀ (l : List Nat) (i total : Nat), i + l.length = total + 1 →
    pushLoop branch delay total i l =
      List.intersperse (.sleepMinutes delay)
        (l.map (fun c => .push c branch true)) := by
  intro l
  induction l with
  | nil => intro i total _; rfl
  | cons c rest ih =>
    intro i total hlen
    cases rest with
    | nil =>
      have hni : ¬ i < total := by simp at hlen; omega
      rw [pushLoop, if_neg hni]
      rfl
    | cons c2 rest2 =>
      have hi : i < total := by simp at hlen; omega
      rw [pushLoop, if_pos hi]
      rw [ih (i + 1) total (by simp at hlen ⊢; omega)]
      simp [List.intersperse]

/-- C9: the push pipeline's event trace is exactly the pending commits —
the `remote_tip..local_head` range when the remote ref exists, the whole
branch otherwise — pushed oldest first, each as a lease-protected forced
update of the branch ref, with the cooldown sleep interleaved strictly
between consecutive pushes (so no sleep after the last push and none at all
for at most one commit). -/
theorem push_commits_one_by_one_trace (remoteRefExists : Bool)
    (rangeCommits wholeBranch : List Nat) (branch : String) (delay : Nat) :
    push_commits_one_by_one remoteRefExists rangeCommits wholeBranch branch delay =
      List.intersperse (.sleepMinutes delay)
        (((if remoteRefExists then rangeCommits else wholeBranch).reverse).map
          (fun c => .push c branch true)) := by
  unfold push_commits_one_by_one
  apply pushLoop_intersperse
  simp only [List.length_reverse]
  omega

/-! ### Release comparison: releaseLt is the lexicographic strict order -/

theorem releaseLt_iff : ∀ a b : List Nat, releaseLt a b = true ↔ a < b := by
  intro a
  induction a with
  | nil =>
    intro b
    cases b with
    | nil =>
      apply iff_of_false
      · simp [releaseLt]
      · exact List.Lex.not_nil_right _ _
    | cons b bs =>
      apply iff_of_true
      · rfl
      · exact List.nil_lt_cons b bs
  | cons a as ih =>
    intro b
    cases b with
    | nil =>
      apply iff_of_false
      · simp [releaseLt]
      · exact List.Lex.not_nil_right _ _
    | cons b bs =>
      rw [releaseLt]
      rcases lt_trichotomy a b with h | h | h
      · rw [if_pos h]
        exact iff_of_true rfl (List.Lex.rel h)
      · subst h
        rw [if_neg (lt_irrefl a), if_neg (lt_irrefl a), ih bs]
        constructor
        · exact List.Lex.cons
        · intro hlex
          rcases hlex with _ | h1 | h1
          · exact h1
          · exact absurd h1 (lt_irrefl a)
      · rw [if_neg (Nat.lt_asymm h), if_pos h]
        apply iff_of_false (by simp)
        intro hlex
        rcases hlex with _ | h1 | h1
        · exact absurd h (lt_irrefl a)
        · exact absurd h1 (Nat.lt_asymm h)

theorem pyMaxPairs_eq_cons (x y : List Char × List Nat)
    (ys : List (List Char × List Nat)) :
    pyMaxPairs x (y :: ys) = pyMaxPairs (if releaseLt x.2 y.2 then y else x) ys :=
  rfl

theorem pyMaxPairs_spec :
    ∀ (xs : List (List Char × List Nat)) (x : List Char × List Nat),
    (pyMaxPairs x xs = x ∨ pyMaxPairs x xs ∈ xs) ∧
      x.2 ≤ (pyMaxPairs x xs).2 ∧ ∀ y ∈ xs, y.2 ≤ (pyMaxPairs x xs).2 := by
  intro xs
  induction xs with
  | nil => intro x; exact ⟨Or.inl rfl, le_refl _, by simp⟩
  | cons y ys ih =>
    intro x
    rw [pyMaxPairs_eq_cons]
    obtain ⟨hmem, hzle, hall⟩ := ih (if releaseLt x.2 y.2 then y else x)
    have hx_z : x.2 ≤ (if releaseLt x.2 y.2 then y else x).2 := by
      by_cases hc : releaseLt x.2 y.2 = true
      · rw [if_pos hc]; exact le_of_lt ((releaseLt_iff _ _).mp hc)
      · rw [if_neg hc]
    have hy_z : y.2 ≤ (if releaseLt x.2 y.2 then y else x).2 := by
      by_cases hc : releaseLt x.2 y.2 = true
      · rw [if_pos hc]
      · rw [if_neg hc]
        exact le_of_not_lt (fun hlt => hc ((releaseLt_iff _ _).mpr hlt))
    refine ⟨?_, le_trans hx_z hzle, ?_⟩
    · rcases hmem with h | h
      · rw [h]
        by_cases hc : releaseLt x.2 y.2 = true
        · rw [if_pos hc]; exact Or.inr (by simp)
        · rw [if_neg hc]; exact Or.inl rfl
      · exact Or.inr (by simp [h])
    · intro w hw
      rcases List.mem_cons.mp hw with h | h
      · subst h; exact le_trans hy_z hzle
      · exact hall w h

/-! ### String munging lemmas -/

theorem replaceAllF_nil (p0 : Char) (pt repl : List Char) :
    ∀ fuel, replaceAllF p0 pt repl fuel [] = [] := by
  intro fuel
  cases fuel <;> rfl

theorem replaceAllF_not_mem (p0 : Char) (pt repl : List Char) :
    ∀ (fuel : Nat) (s : List Char), s.length ≤ fuel → p0 ∉ s →
    replaceAllF p0 pt repl fuel s = s := by
  intro fuel
  induction fuel with
  | zero =>
    intro s hs _
    have h0 : s = [] := List.eq_nil_of_length_eq_zero (Nat.le_zero.mp hs)
    rw [h0, replaceAllF_nil]
  | succ f ih =>
    intro s hs hmem
    cases s with
    | nil => rfl
    | cons c rest =>
      have hpc : (p0 == c) = false :=
        beq_eq_false_iff_ne.mpr (fun h => hmem (h ▸ List.mem_cons_self c rest))
      have hpre : ((p0 :: pt).isPrefixOf (c :: rest)) = false := by
        simp [List.isPrefixOf, hpc]
      rw [replaceAllF, if_neg (by simp [hpre])]
      have htail := ih rest (by simp only [List.length_cons] at hs; omega)
        (fun h => hmem (List.mem_cons_of_mem c h))
      rw [htail]

theorem replaceAll_not_mem (p0 : Char) (pt repl s : List Char) (h : p0 ∉ s) :
    replaceAll p0 pt repl s = s :=
  replaceAllF_not_mem p0 pt repl s.length s (le_refl _) h

theorem replaceAll_strip_v (s : List Char) (h : 'v' ∉ s) :
    replaceAll 'v' [] [] ('v' :: s) = s := by
  show replaceAllF 'v' [] [] (s.length + 1) ('v' :: s) = s
  have hpre : ((['v'] : List Char).isPrefixOf ('v' :: s)) = true := by
    simp [List.isPrefixOf]
  rw [replaceAllF, if_pos (by simp [hpre])]
  simp only [List.length_nil, List.drop_zero, List.nil_append]
  exact replaceAllF_not_mem 'v' [] [] s.length s (le_refl _) h

theorem replaceAllF_suffix (p0 : Char) (ch : List Char) :
    ∀ (pre : List Char) (fuel : Nat), (pre ++ p0 :: ch).length ≤ fuel →
    p0 ∉ pre → replaceAllF p0 ch [] fuel (pre ++ p0 :: ch) = pre := by
  intro pre
  induction pre with
  | nil =>
    intro fuel hlen _
    cases fuel with
    | zero => simp at hlen
    | succ f =>
      have hpre : ((p0 :: ch).isPrefixOf (p0 :: ch)) = true := by
        simp [List.isPrefixOf_iff_prefix]
      rw [List.nil_append, replaceAllF, if_pos (by simp [hpre])]
      rw [List.drop_length, replaceAllF_nil]
      rfl
  | cons a pre' ih =>
    intro fuel hlen hmem
    cases fuel with
    | zero => simp at hlen
    | succ f =>
      have hpa : (p0 == a) = false :=
        beq_eq_false_iff_ne.mpr (fun h => hmem (h ▸ List.mem_cons_self a pre'))
      have hpre : ((p0 :: ch).isPrefixOf (a :: (pre' ++ p0 :: ch))) = false := by
        simp [List.isPrefixOf, hpa]
      rw [List.cons_append, replaceAllF, if_neg (by simp [hpre])]
      have htail := ih f (by simp only [List.cons_append, List.length_cons,
          List.length_append] at hlen ⊢; omega)
        (fun h => hmem (List.mem_cons_of_mem a h))
      rw [htail]

theorem replaceAll_suffix (p0 : Char) (ch pre : List Char) (h : p0 ∉ pre) :
    replaceAll p0 ch [] (pre ++ p0 :: ch) = pre :=
  replaceAllF_suffix p0 ch pre _ (le_refl _) h

theorem stripPlatformF_nil : ∀ fuel, stripPlatformF fuel [] = [] := by
  intro fuel
  cases fuel <;> rfl

theorem stripPlatformF_no_dash :
    ∀ (fuel : Nat) (s : List Char), s.length ≤ fuel → '-' ∉ s →
    stripPlatformF fuel s = s := by
  intro fuel
  induction fuel with
  | zero =>
    intro s hs _
    have h0 : s = [] := List.eq_nil_of_length_eq_zero (Nat.le_zero.mp hs)
    rw [h0, stripPlatformF_nil]
  | succ f ih =>
    intro s hs hmem
    cases s with
    | nil => rfl
    | cons c rest =>
      have hc : ¬ (c = '-') := fun h => hmem (h ▸ List.mem_cons_self c rest)
      rw [stripPlatformF, if_neg hc]
      have htail := ih rest (by simp only [List.length_cons] at hs; omega)
        (fun h => hmem (List.mem_cons_of_mem c h))
      rw [htail]

theorem strip_platform_no_dash (s : List Char) (h : '-' ∉ s) :
    strip_platform s = s :=
  stripPlatformF_no_dash s.length s (le_refl _) h

theorem stripPlatformF_suffix (ch : List Char) (hne : ch ≠ [])
    (hw : ∀ c ∈ ch, isWordChar c = true) :
    ∀ (pre : List Char) (fuel : Nat), (pre ++ '-' :: ch).length ≤ fuel →
    '-' ∉ pre → stripPlatformF fuel (pre ++ '-' :: ch) = pre := by
  intro pre
  induction pre with
  | nil =>
    intro fuel hlen _
    cases fuel with
    | zero => simp at hlen
    | succ f =>
      have hrun : ch.takeWhile isWordChar = ch := List.takeWhile_eq_self_iff.mpr hw
      rw [List.nil_append, stripPlatformF, if_pos rfl]
      rw [if_pos ?hcond]
      case hcond =>
        rw [hrun, List.drop_length]
        refine ⟨?_, Or.inl rfl⟩
        simpa using hne
      rw [hrun, List.drop_length, stripPlatformF_nil]
  | cons a pre' ih =>
    intro fuel hlen hmem
    cases fuel with
    | zero => simp at hlen
    | succ f =>
      have ha : ¬ (a = '-') := fun h => hmem (by rw [← h]; exact List.mem_cons_self a pre')
      rw [List.cons_append, stripPlatformF, if_neg ha]
      have htail := ih f (by simp only [List.cons_append, List.length_cons,
          List.length_append] at hlen ⊢; omega)
        (fun h => hmem (List.mem_cons_of_mem a h))
      rw [htail]

theorem strip_platform_suffix (ch : List Char) (hne : ch ≠ [])
    (hw : ∀ c ∈ ch, isWordChar c = true) (pre : List Char) (h : '-' ∉ pre) :
    strip_platform (pre ++ '-' :: ch) = pre :=
  stripPlatformF_suffix ch hne hw pre _ (le_refl _) h

/-! ### Version parsing lemmas -/

theorem numeric_not_mem (s : List Char) (h : NumericChars s) (c0 : Char)
    (h1 : c0.isDigit = false) (h2 : c0 ≠ '.') : c0 ∉ s := by
  intro hmem
  rcases h c0 hmem with hd | hd
  · rw [hd] at h1; exact Bool.noConfusion h1
  · exact h2 hd

theorem splitOnDot_ne_nil : ∀ s : List Char, splitOnDot s ≠ [] := by
  intro s
  induction s with
  | nil => simp [splitOnDot]
  | cons c rest ih =>
    rw [splitOnDot]
    by_cases hc : c = '.'
    · rw [if_pos hc]; simp
    · rw [if_neg hc]
      rcases he : splitOnDot rest with _ | ⟨h1, t⟩
      · exact absurd he ih
      · simp

theorem parse_head_digit (s : List Char) (r : List Nat)
    (h : parse_version s = some r) :
    ∃ c cs, s = c :: cs ∧ c.isDigit = true := by
  cases s with
  | nil =>
    rw [show parse_version ([] : List Char) = none from by decide] at h
    exact Option.noConfusion h
  | cons c cs =>
    by_cases hc : c = '.'
    · exfalso
      subst hc
      unfold parse_version at h
      rw [splitOnDot, if_pos rfl, List.mapM_cons,
        show digitsVal [] = none from by decide] at h
      simp at h
    · obtain ⟨h1, t, ht⟩ : ∃ h1 t, splitOnDot cs = h1 :: t := by
        rcases he : splitOnDot cs with _ | ⟨h1, t⟩
        · exact absurd he (splitOnDot_ne_nil cs)
        · exact ⟨h1, t, rfl⟩
      unfold parse_version at h
      rw [splitOnDot, if_neg hc, ht, List.mapM_cons] at h
      cases hdv : digitsVal (c :: h1) with
      | none => rw [hdv] at h; simp at h
      | some v =>
        unfold digitsVal at hdv
        by_cases hcd : (c :: h1) ≠ [] ∧ (c :: h1).all Char.isDigit
        · have hall := hcd.2
          rw [List.all_cons, Bool.and_eq_true] at hall
          exact ⟨c, cs, rfl, hall.1⟩
        · rw [if_neg hcd] at hdv
          exact Option.noConfusion hdv

theorem fromFirstDigit_of_head_digit (c : Char) (cs : List Char)
    (h : c.isDigit = true) : fromFirstDigit (c :: cs) = some (c :: cs) := by
  unfold fromFirstDigit
  rw [List.dropWhile_cons, h]
  simp

theorem get_comparable_numeric (s : List Char) (r : List Nat)
    (hnum : NumericChars s) (h : parse_version s = some r) :
    get_comparable_version s = some r := by
  have hplus : '+' ∉ s := numeric_not_mem s hnum '+' (by decide) (by decide)
  have hdash : '-' ∉ s := numeric_not_mem s hnum '-' (by decide) (by decide)
  obtain ⟨c, cs, rfl, hcd⟩ := parse_head_digit s r h
  unfold get_comparable_version strip_metadata
  rw [replaceAll_not_mem _ _ _ _ hplus, strip_platform_no_dash _ hdash,
    fromFirstDigit_of_head_digit c cs hcd]
  simpa using h

theorem suffix_tag (ch ver : List Char) :
    (('-' :: ch).isSuffixOf ('v' :: (ver ++ '-' :: ch))) = true := by
  have h : ('-' :: ch) <:+ ('v' :: ver) ++ ('-' :: ch) := List.suffix_append _ _
  rw [List.cons_append] at h
  simpa [List.isSuffixOf_iff_suffix] using h

theorem tagMunge_wellformed (ch ver : List Char) (hver_v : 'v' ∉ ver)
    (hver_dash : '-' ∉ ver) (hch_v : 'v' ∉ ch) :
    tagMunge ch ('v' :: (ver ++ '-' :: ch)) = ver := by
  unfold tagMunge
  have hv : 'v' ∉ ver ++ '-' :: ch := by
    intro hm
    rcases List.mem_append.mp hm with hm | hm
    · exact hver_v hm
    · rcases List.mem_cons.mp hm with hm | hm
      · exact absurd hm (by decide)
      · exact hch_v hm
  rw [replaceAll_strip_v _ hv]
  exact replaceAll_suffix '-' ch ver hver_dash

theorem get_comparable_tag (ch ver : List Char) (rv : List Nat)
    (hnum : NumericChars ver) (hpv : parse_version ver = some rv)
    (hch_w : ∀ c ∈ ch, isWordChar c = true) (hch_ne : ch ≠ []) :
    get_comparable_version ('v' :: (ver ++ '-' :: ch)) = some rv := by
  have hplus_ver : '+' ∉ ver := numeric_not_mem ver hnum '+' (by decide) (by decide)
  have hplus : '+' ∉ 'v' :: (ver ++ '-' :: ch) := by
    intro hm
    rcases List.mem_cons.mp hm with hm | hm
    · exact absurd hm (by decide)
    · rcases List.mem_append.mp hm with hm | hm
      · exact hplus_ver hm
      · rcases List.mem_cons.mp hm with hm | hm
        · exact absurd hm (by decide)
        · have := hch_w '+' hm
          exact absurd this (by decide)
  have hdash_pre : '-' ∉ 'v' :: ver := by
    intro hm
    rcases List.mem_cons.mp hm with hm | hm
    · exact absurd hm (by decide)
    · exact (numeric_not_mem ver hnum '-' (by decide) (by decide)) hm
  obtain ⟨c, cs, hver_eq, hcd⟩ := parse_head_digit ver rv hpv
  unfold get_comparable_version strip_metadata
  rw [replaceAll_not_mem _ _ _ _ hplus]
  rw [show ('v' :: (ver ++ '-' :: ch)) = ('v' :: ver) ++ '-' :: ch from rfl]
  rw [strip_platform_suffix ch hch_ne hch_w ('v' :: ver) hdash_pre]
  have hffd : fromFirstDigit ('v' :: ver) = some ver := by
    unfold fromFirstDigit
    rw [List.dropWhile_cons, show ((!('v').isDigit) = true) from by decide,
      if_pos rfl, hver_eq, List.dropWhile_cons, hcd]
    simp
  rw [hffd]
  simpa using hpv

/-! ### Alignment of the guard's computation with the published versions -/

theorem tags_align (ch : List Char) (hch_w : ∀ c ∈ ch, isWordChar c = true)
    (hch_ne : ch ≠ []) (hch_v : 'v' ∉ ch) :
    ∀ (tags : List (List Char)), (∀ t ∈ tags, TagOk ch t) →
    ∃ ps : List (List Char × List Nat),
      ((tags.filter (fun t => ('-' :: ch).isSuffixOf t)).map (tagMunge ch)) =
        ps.map Prod.fst
    ∧ (∀ p ∈ ps, NumericChars p.1 ∧ parse_version p.1 = some p.2)
    ∧ publishedVersions ch tags = ps.map Prod.snd := by
  intro tags
  induction tags with
  | nil => intro _; exact ⟨[], rfl, by simp, rfl⟩
  | cons t rest ih =>
    intro h
    obtain ⟨ps, hmap, hps, hpub⟩ := ih (fun x hx => h x (List.mem_cons_of_mem t hx))
    rcases h t (List.mem_cons_self t rest) with hno | ⟨ver, rv, rfl, hnum, hpv⟩
    · refine ⟨ps, ?_, hps, ?_⟩
      · rw [List.filter_cons_of_neg (by simp [hno])]
        exact hmap
      · unfold publishedVersions at hpub ⊢
        rw [List.filter_cons_of_neg (by simp [hno])]
        exact hpub
    · have hsuf := suffix_tag ch ver
      have hver_v : 'v' ∉ ver := numeric_not_mem ver hnum 'v' (by decide) (by decide)
      have hver_d : '-' ∉ ver := numeric_not_mem ver hnum '-' (by decide) (by decide)
      refine ⟨(ver, rv) :: ps, ?_, ?_, ?_⟩
      · rw [List.filter_cons_of_pos (by simp [hsuf]), List.map_cons,
          tagMunge_wellformed ch ver hver_v hver_d hch_v, hmap]
        rfl
      · intro p hp
        rcases List.mem_cons.mp hp with h1 | h1
        · subst h1; exact ⟨hnum, hpv⟩
        · exact hps p h1
      · unfold publishedVersions at hpub ⊢
        rw [List.filter_cons_of_pos (by simp [hsuf]),
          List.filterMap_cons_some
            (get_comparable_tag ch ver rv hnum hpv hch_w hch_ne), hpub]
        rfl

theorem mapM_pairs :
    ∀ (ps : List (List Char × List Nat)),
    (∀ p ∈ ps, parse_version p.1 = some p.2) →
    (ps.map Prod.fst).mapM (fun v => (parse_version v).map (fun k => (v, k))) =
      some ps := by
  intro ps
  induction ps with
  | nil => intro _; rfl
  | cons p rest ih =>
    intro h
    rw [List.map_cons, List.mapM_cons, h p (List.mem_cons_self p rest),
      ih (fun q hq => h q (List.mem_cons_of_mem p hq))]
    simp

theorem process_game_mutations_fst (gitDirExists dubiousOwnership : Bool)
    (candidate platform : List Char) (repoExists : Bool)
    (remoteTags : List (List Char)) :
    (process_game_mutations gitDirExists dubiousOwnership candidate platform
        repoExists remoteTags).1 =
      tag_guard candidate platform repoExists remoteTags := by
  unfold process_game_mutations
  cases tag_guard candidate platform repoExists remoteTags <;> rfl

/-- C3 (amended): given a well-formed channel (a non-empty word-character
platform name not containing 'v', as every platform the scanner emits is) and
well-formed remote tags (each either not of this channel, or
`v<numeric>-<channel>`), the guard aborts with the regression error exactly
when the candidate version is strictly lower than the highest version
already published on the same channel; versions published on other channels
never trigger it.  When it triggers, the only repository mutations that have
happened are those of the repository-handle constructor, which runs before
the guard (initializing a local repository when the directory has none, and
possibly a global safe.directory write) — in particular the remote
repository has not been created or changed and no cleaning, configuration,
synchronization, commit, push or tag update has happened. -/
theorem tag_guard_regression_iff (gitDirExists dubiousOwnership : Bool)
    (cand ch : List Char) (rc : List Nat)
    (repoExists : Bool) (tags : List (List Char))
    (hcand_num : NumericChars cand) (hcand : parse_version cand = some rc)
    (hch_ne : ch ≠ []) (hch_w : ∀ c ∈ ch, isWordChar c = true) (hch_v : 'v' ∉ ch)
    (htags : ∀ t ∈ tags, TagOk ch t) :
    ((process_game_mutations gitDirExists dubiousOwnership cand ch repoExists
        tags).1 = .regression ↔
       (repoExists = true ∧
        ∃ m ∈ publishedVersions ch tags,
          (∀ x ∈ publishedVersions ch tags, x ≤ m) ∧ rc < m))
  ∧ ((process_game_mutations gitDirExists dubiousOwnership cand ch repoExists
        tags).1 = .regression →
       (process_game_mutations gitDirExists dubiousOwnership cand ch repoExists
          tags).2 = preGuardMutations gitDirExists dubiousOwnership) := by
  constructor
  · rw [process_game_mutations_fst]
    unfold tag_guard
    cases repoExists with
    | false =>
      rw [if_pos rfl]
      apply iff_of_false (by simp)
      rintro ⟨h, -⟩
      exact Bool.noConfusion h
    | true =>
      rw [if_neg (by simp)]
      obtain ⟨ps, hmap, hps, hpub⟩ := tags_align ch hch_w hch_ne hch_v tags htags
      rw [hmap, mapM_pairs ps (fun p hp => (hps p hp).2)]
      cases ps with
      | nil =>
        apply iff_of_false (by simp [tag_guard_pairs])
        rintro ⟨-, m, hm, -⟩
        rw [hpub] at hm
        simp at hm
      | cons x xs =>
        have hlatest_mem : pyMaxPairs x xs ∈ x :: xs := by
          rcases (pyMaxPairs_spec xs x).1 with h | h
          · rw [h]; exact List.mem_cons_self x xs
          · exact List.mem_cons_of_mem x h
        have hlp := hps (pyMaxPairs x xs) hlatest_mem
        have hivo : is_version_older cand (pyMaxPairs x xs).1 =
            some (releaseLt rc (pyMaxPairs x xs).2) := by
          unfold is_version_older
          rw [get_comparable_numeric cand rc hcand_num hcand,
            get_comparable_numeric _ _ hlp.1 hlp.2]
        rw [tag_guard_pairs, tag_guard_compare, hivo]
        have hmax : ∀ p ∈ x :: xs, p.2 ≤ (pyMaxPairs x xs).2 := by
          intro p hp
          rcases List.mem_cons.mp hp with h1 | h1
          · rw [h1]; exact (pyMaxPairs_spec xs x).2.1
          · exact (pyMaxPairs_spec xs x).2.2 p h1
        by_cases hb : releaseLt rc (pyMaxPairs x xs).2 = true
        · rw [hb]
          apply iff_of_true rfl
          refine ⟨rfl, (pyMaxPairs x xs).2, ?_, ?_, (releaseLt_iff _ _).mp hb⟩
          · rw [hpub]
            exact List.mem_map.mpr ⟨_, hlatest_mem, rfl⟩
          · intro v hv
            rw [hpub] at hv
            rcases List.mem_map.mp hv with ⟨p, hp, rfl⟩
            exact hmax p hp
        · have hb1 : releaseLt rc (pyMaxPairs x xs).2 = false := by
            simpa using hb
          rw [hb1]
          apply iff_of_false (by simp)
          rintro ⟨-, m, hm, -, hlt⟩
          rw [hpub] at hm
          rcases List.mem_map.mp hm with ⟨p, hp, rfl⟩
          exact hb ((releaseLt_iff _ _).mpr (lt_of_lt_of_le hlt (hmax p hp)))
  · unfold process_game_mutations
    cases htg : tag_guard cand ch repoExists tags with
    | proceed => intro h; exact absurd h (by simp)
    | regression => intro _; rfl
    | parseFailure => intro h; exact absurd h (by simp)

/-- Witness for C3 at the spec's worked example: channel `pc` with published
versions 1.0 and 1.2, candidate 1.1, in a directory without a repository. -/
theorem tag_guard_regression_iff_witness :
    ((process_game_mutations false false ("1.1".toList) ("pc".toList) true
        ["v1.0-pc".toList, "v1.2-pc".toList]).1 = .regression ↔
      (true = true ∧
       ∃ m ∈ publishedVersions ("pc".toList) ["v1.0-pc".toList, "v1.2-pc".toList],
         (∀ x ∈ publishedVersions ("pc".toList) ["v1.0-pc".toList, "v1.2-pc".toList],
            x ≤ m) ∧ [1, 1] < m))
  ∧ ((process_game_mutations false false ("1.1".toList) ("pc".toList) true
        ["v1.0-pc".toList, "v1.2-pc".toList]).1 = .regression →
      (process_game_mutations false false ("1.1".toList) ("pc".toList) true
        ["v1.0-pc".toList, "v1.2-pc".toList]).2 = preGuardMutations false false) :=
  tag_guard_regression_iff false false ("1.1".toList) ("pc".toList) [1, 1] true
    ["v1.0-pc".toList, "v1.2-pc".toList]
    (by decide) (by decide) (by decide) (by decide) (by decide)
    (by
      intro t ht
      rcases List.mem_cons.mp ht with rfl | ht1
      · exact Or.inr ⟨"1.0".toList, [1], by decide, by decide, by decide⟩
      rcases List.mem_cons.mp ht1 with rfl | ht2
      · exact Or.inr ⟨"1.2".toList, [1, 2], by decide, by decide, by decide⟩
      · exact absurd ht2 (List.not_mem_nil t))

/-- Counterexample to C3 as stated: the repository-handle constructor runs
before the guard, so in the guard's primary abort scenario — a fresh
directory holding a downloaded older version — the local repository has
already been initialized (`Repo.init`, core.py line 107) when the regression
error aborts the run.  The abort therefore does not precede every repository
mutation. -/
theorem process_game_mutation_before_abort :
    (process_game_mutations false false ("1.1".toList) ("pc".toList) true
        ["v1.2-pc".toList]).1 = .regression
  ∧ (process_game_mutations false false ("1.1".toList) ("pc".toList) true
        ["v1.2-pc".toList]).2 ≠ []
  ∧ RunMutation.initLocalRepo ∈
      (process_game_mutations false false ("1.1".toList) ("pc".toList) true
        ["v1.2-pc".toList]).2 := by
  refine ⟨by decide, by decide, by decide⟩

end Gitchunk
